import Mathlib

/-!
Verification of the sticker-downloader bot (telegram-bots-collection).

Shallow embedding of `static_methods.py` and `telegram_sticker_downloader.py`:
the greedy size-splitting loop, the retry loop, the per-conversation session
dictionary, and the two download pipelines modelled over an explicit
filesystem state.  File names are represented structurally (one constructor
per naming pattern used by the code, for a fixed sticker-set base name), file
sizes as exact rationals, and the fallible external calls (network fetch,
format conversion) as boolean oracles saying whether the call succeeds.
-/

namespace StickerBot

/-! ## Definitions -/

/-! ### Size-bounded splitter (static_methods.py, split_files_into_directories)

The loop body (lines 129-138): for each file, if `current_size + file_size >
max_size_mb` then create a new directory and reset `current_size` to 0, then
move the file into the current directory and add its size.  `dir_0` is
created unconditionally before the loop, so the result always has at least
one (possibly empty) bin. -/

/-- The splitting loop of `split_files_into_directories`: `cur` is the
contents of the currently open directory and `curSize` its accumulated
size. -/
def greedyGo {α : Type} (size : α → ℚ) (C : ℚ) : List α → List α → ℚ → List (List α)
  | [], cur, _ => [cur]
  | a :: rest, cur, curSize =>
    if curSize + size a > C then
      cur :: greedyGo size C rest [a] (size a)
    else
      greedyGo size C rest (cur ++ [a]) (curSize + size a)

/-- The bins produced by `split_files_into_directories` for a given listing
of files: the loop starts with the already-created empty `dir_0` and running
size 0. -/
def greedySplit {α : Type} (size : α → ℚ) (C : ℚ) (files : List α) : List (List α) :=
  greedyGo size C files [] 0

/-- Modelled from the spec: "maintain a running `currentSize` and
`currentBin`; for each file, if `currentSize + fileSize > ceilingBytes`,
close the current bin and open a new one with `currentSize` reset to 0;
append the file to the (possibly new) current bin and add its size to
`currentSize`."  Written as a left fold over the file list, to be compared
with `greedySplit` (translated from the source). -/
def specPack {α : Type} (size : α → ℚ) (C : ℚ) (files : List α) : List (List α) :=
  let st := files.foldl
    (fun st a =>
      if st.2.2 + size a > C then
        (st.1 ++ [st.2.1], [a], size a)
      else
        (st.1, st.2.1 ++ [a], st.2.2 + size a))
    (([] : List (List α)), ([] : List α), (0 : ℚ))
  st.1 ++ [st.2.1]

/-- A bin is valid when its total size is within the ceiling, or it is a
single oversized file. -/
def validBin {α : Type} (size : α → ℚ) (C : ℚ) (b : List α) : Prop :=
  (b.map size).sum ≤ C ∨ ∃ a, b = [a] ∧ C < size a

/-- Bin count of the greedy loop, as a function of the sizes alone. -/
def gcount (C : ℚ) : List ℚ → ℚ → ℕ
  | [], _ => 1
  | a :: rest, s => if s + a > C then 1 + gcount C rest a else gcount C rest (s + a)

/-! ### Retry executor (telegram_sticker_downloader.py, retry_async, lines 25-44)

`for attempt in range(retries): try: return await func(...) except: log;
if attempt < retries - 1: sleep(delay * 2 ** attempt) else: raise`.
The trace records the outcome (`none` models Python's implicit `None`
return when `retries = 0`), the number of invocations of `func`, the
sequence of logged errors and the sequence of performed sleeps. -/

structure RetryTrace (E A : Type) where
  result : Option (Except E A)
  calls : ℕ
  logs : List E
  delays : List ℚ
deriving Repr

/-- One pass of the retry loop: `attempt` is the zero-based attempt index,
`fuel` the number of attempts still allowed (`retries - attempt`). -/
def retryGo {E A : Type} (op : ℕ → Except E A) (delay : ℚ) : ℕ → ℕ → RetryTrace E A
  | _, 0 => ⟨none, 0, [], []⟩
  | attempt, fuel + 1 =>
    match op attempt with
    | .ok a => ⟨some (.ok a), 1, [], []⟩
    | .error e =>
      if fuel = 0 then
        ⟨some (.error e), 1, [e], []⟩
      else
        let t := retryGo op delay (attempt + 1) fuel
        ⟨t.result, t.calls + 1, e :: t.logs, delay * 2 ^ attempt :: t.delays⟩

/-- `retry_async(func, retries, delay)`: run the loop from attempt 0 with
`retries` attempts available; the behaviour of `func` on its k-th invocation
is `op k`. -/
def retry_async {E A : Type} (op : ℕ → Except E A) (retries : ℕ) (delay : ℚ) : RetryTrace E A :=
  retryGo op delay 0 retries

/-! ### File names, contents, messages

File names are structural: for a fixed sticker-set base name, each naming
pattern of the code (`{base}_{suffix}` job directory, `temp`, `split`,
`dir_{k}`, `{base}_{i}.tgs`, converted outputs, `{base}.zip`,
`{base}_dir_{k}.zip`) is one constructor; these patterns denote pairwise
distinct strings. -/

inductive FName where
  | outRoot
  | jobDir (suffix : ℕ)
  | tempDir
  | splitDir
  | binDir (k : ℕ)
  | tgsName (i : ℕ)
  | gifName (i : ℕ)
  | pngName (i : ℕ)
  | webpName (i : ℕ)
  | jsonName (i : ℕ)
  | txtName (i : ℕ)
  | zipSingle
  | zipBin (k : ℕ)
deriving DecidableEq, Repr

abbrev FPath := List FName

/-- File contents: the downloaded `.tgs` payload of item `i`, its converted
outputs (`lotC` is the gunzipped json payload, delivered under the `.txt`
name), or a zip archive holding named entries. -/
inductive Content where
  | tgsC (i : ℕ)
  | gifC (i : ℕ)
  | pngC (i : ℕ)
  | webpC (i : ℕ)
  | lotC (i : ℕ)
  | zipC (entries : List (FName × Content))

/-- Outbound messages: plain text or a document upload (filename plus the
bytes read from disk at send time). -/
inductive Msg where
  | text (s : String)
  | document (filename : FName) (content : Content)

/-! ### Session state (start/stop/handle_sticker, lines 46-107)

`context.user_data` holds at most `sticker_set_name`, `sticker` and
`download_type`; the spec's session states are derived from which fields
are set. -/

structure Sticker where
  set_name : String
  is_animated : Bool
deriving DecidableEq, Repr

structure UserData where
  sticker_set_name : Option String
  sticker : Option Sticker
  download_type : Option String
deriving DecidableEq, Repr

def UserData.empty : UserData := ⟨none, none, none⟩

inductive SessState where
  | Idle
  | AwaitingScope
  | AwaitingFormat
deriving DecidableEq, Repr

/-- The spec's session state, read off the recorded fields: no recorded item
means `Idle`, an item without a chosen scope means `AwaitingScope`, an item
with a chosen scope means `AwaitingFormat`. -/
def sessionState (u : UserData) : SessState :=
  match u.sticker, u.download_type with
  | none, _ => .Idle
  | some _, none => .AwaitingScope
  | some _, some _ => .AwaitingFormat

/-- `stop` (lines 62-73): `context.user_data.clear()` then a confirmation
message, regardless of the current session contents. -/
def stop (_ : UserData) : UserData × List Msg :=
  (UserData.empty, [.text "Current download stopped."])

/-- `handle_sticker` (lines 83-107): an animated sticker records the set
name and the sticker and prompts for the scope; anything else gets a
rejection message and leaves the stored fields untouched. -/
def handle_sticker (u : UserData) (st : Option Sticker) : UserData × List Msg :=
  match st with
  | some s =>
    if s.is_animated then
      ({ u with sticker_set_name := some s.set_name, sticker := some s },
        [.text "Do you want to download just this sticker or the whole set?"])
    else
      (u, [.text "Please send an animated sticker."])
  | none => (u, [.text "Please send an animated sticker."])

/-! ### Filesystem state -/

inductive PyErr where
  | netErr
  | convErr
  | fsErr
  | dirNotEmpty
deriving DecidableEq, Repr

inductive LogEvent where
  | itemError (idx : ℕ)
  | jobError
deriving DecidableEq, Repr

structure FS where
  dirs : List FPath
  files : List (FPath × Content)

/-- `p` is a direct child of `dir`. -/
def childOf (dir p : FPath) : Prop :=
  p.dropLast = dir ∧ p.length = dir.length + 1

instance (dir p : FPath) : Decidable (childOf dir p) := by
  unfold childOf
  infer_instance

/-- Remove the entry at path `p` (`os.remove`). -/
def removeEntry (p : FPath) : List (FPath × Content) → List (FPath × Content)
  | [] => []
  | e :: rest => if e.1 = p then removeEntry p rest else e :: removeEntry p rest

/-- Remove the directory entry `p`. -/
def removeDirEntry (p : FPath) : List FPath → List FPath
  | [] => []
  | d :: rest => if d = p then removeDirEntry p rest else d :: removeDirEntry p rest

/-- Keep the files outside the subtree rooted at `p`. -/
def pruneFiles (p : FPath) : List (FPath × Content) → List (FPath × Content)
  | [] => []
  | e :: rest => if p <+: e.1 then pruneFiles p rest else e :: pruneFiles p rest

/-- Keep the directories outside the subtree rooted at `p`. -/
def pruneDirs (p : FPath) : List FPath → List FPath
  | [] => []
  | d :: rest => if p <+: d then pruneDirs p rest else d :: pruneDirs p rest

/-- The files directly inside `dir`, in list order. -/
def childFiles (dir : FPath) : List (FPath × Content) → List (FPath × Content)
  | [] => []
  | e :: rest => if childOf dir e.1 then e :: childFiles dir rest else childFiles dir rest

/-- The directories directly inside `dir`, in list order. -/
def childDirs (dir : FPath) : List FPath → List FPath
  | [] => []
  | d :: rest => if childOf dir d then d :: childDirs dir rest else childDirs dir rest

/-- The content stored at `p`, if any. -/
def lookupIn (p : FPath) : List (FPath × Content) → Option Content
  | [] => none
  | e :: rest => if e.1 = p then some e.2 else lookupIn p rest

def FS.mkdir (fs : FS) (p : FPath) : FS := ⟨fs.dirs ++ [p], fs.files⟩

def FS.write (fs : FS) (p : FPath) (c : Content) : FS := ⟨fs.dirs, fs.files ++ [(p, c)]⟩

def FS.removeFile (fs : FS) (p : FPath) : FS := ⟨fs.dirs, removeEntry p fs.files⟩

/-- `shutil.rmtree`: remove a directory and everything below it. -/
def FS.rmtree (fs : FS) (p : FPath) : FS :=
  ⟨pruneDirs p fs.dirs, pruneFiles p fs.files⟩

/-- `os.listdir` restricted to regular files (with `os.path.isfile`), in
directory-listing order, which the model takes to be creation order. -/
def FS.listFiles (fs : FS) (dir : FPath) : List (FPath × Content) :=
  childFiles dir fs.files

/-- `os.listdir` restricted to subdirectories, in creation order. -/
def FS.listDirs (fs : FS) (dir : FPath) : List FPath :=
  childDirs dir fs.dirs

def FS.lookup (fs : FS) (p : FPath) : Option Content := lookupIn p fs.files

def FS.hasDir (fs : FS) (p : FPath) : Prop := p ∈ fs.dirs

instance (fs : FS) (p : FPath) : Decidable (fs.hasDir p) := by
  unfold FS.hasDir
  infer_instance

/-- `os.rmdir`: fails unless the directory is empty. -/
def FS.rmdir (fs : FS) (p : FPath) : Except PyErr FS :=
  if (∃ d ∈ fs.dirs, p <+: d ∧ d ≠ p) ∨ (∃ e ∈ fs.files, p <+: e.1) then
    .error .dirNotEmpty
  else
    .ok ⟨removeDirEntry p fs.dirs, fs.files⟩

/-- Conversation-visible world: the filesystem, the messages sent so far and
the logged errors.  Retry-internal logging (line 40) is modelled by
`retry_async` itself; `logs` here records the two `logger.error` handlers of
the pipelines (the per-item handler of the set loop and the job-level
handler of `handle_download`). -/
structure World where
  fs : FS
  sent : List Msg
  logs : List LogEvent

/-- Process start: the module body creates `output_stickers` if absent. -/
def World.init : World := ⟨⟨[[.outRoot]], []⟩, [], []⟩

def basename (p : FPath) : FName := p.getLastD .outRoot

/-! ### Shared pipeline helpers -/

/-- `context.bot.send_document(..., document=open(path), filename=basename)`. -/
def send_document (w : World) (p : FPath) : World × Option PyErr :=
  match w.fs.lookup p with
  | some c => ({ w with sent := w.sent ++ [.document (basename p) c] }, none)
  | none => (w, some .fsErr)

/-- `send_zip_file` (lines 314-323): send the document, then `os.remove` it. -/
def send_zip_file (w : World) (zipPath : FPath) : World × Option PyErr :=
  match send_document w zipPath with
  | (w', none) => ({ w' with fs := w'.fs.removeFile zipPath }, none)
  | (w', some e) => (w', some e)

/-- Read the named source files into zip entries `(basename, bytes)`; fails
if a source file is missing. -/
def zipEntries (fs : FS) : List FPath → Option (List (FName × Content))
  | [] => some []
  | p :: rest =>
    match fs.lookup p, zipEntries fs rest with
    | some c, some es => some ((basename p, c) :: es)
    | _, _ => none

/-- `zipfile.ZipFile(zip_path, 'w')` with one `zipf.write(src, basename(src))`
per source file. -/
def buildZip (w : World) (zipPath : FPath) (srcs : List FPath) : World × Option PyErr :=
  match zipEntries w.fs srcs with
  | some es => ({ w with fs := w.fs.write zipPath (.zipC es) }, none)
  | none => (w, some .fsErr)

/-- Success oracles for the four converters on one item. -/
structure ConvOk where
  gif : Bool
  png : Bool
  webp : Bool
  lottie : Bool
deriving DecidableEq, Repr

def ConvOk.all : ConvOk := ⟨true, true, true, true⟩

/-- A gif/png/webp conversion: on success the output file appears, on
failure the converter raises and writes nothing. -/
def convOne (ok : Bool) (p : FPath) (c : Content) (w : World) : World × Option PyErr :=
  if ok then ({ w with fs := w.fs.write p c }, none) else (w, some .convErr)

/-- `convert_tgs_to_lottie` (static_methods.py lines 84-108): gunzip the
payload to `{base}_{i}.json`, then `os.rename` it to `{base}_{i}.txt`. -/
def convLottie (ok : Bool) (dir : FPath) (i : ℕ) (w : World) : World × Option PyErr :=
  if ok then
    let fs1 := w.fs.write (dir ++ [.jsonName i]) (.lotC i)
    let fs2 := (fs1.removeFile (dir ++ [.jsonName i])).write (dir ++ [.txtName i]) (.lotC i)
    ({ w with fs := fs2 }, none)
  else
    (w, some .convErr)

inductive Fmt where
  | gif
  | png
  | webp
  | lottie
  | all
deriving DecidableEq, Repr

/-- The conversion block of the set loop (lines 279-293): convert the
downloaded payload to the chosen format, or to all four formats in
sequence. -/
def convertFmt (c : ConvOk) (fmt : Fmt) (dir : FPath) (i : ℕ) (w : World) : World × Option PyErr :=
  match fmt with
  | .gif => convOne c.gif (dir ++ [.gifName i]) (.gifC i) w
  | .png => convOne c.png (dir ++ [.pngName i]) (.pngC i) w
  | .webp => convOne c.webp (dir ++ [.webpName i]) (.webpC i) w
  | .lottie => convLottie c.lottie dir i w
  | .all =>
    match convOne c.gif (dir ++ [.gifName i]) (.gifC i) w with
    | (w1, some e) => (w1, some e)
    | (w1, none) =>
      match convOne c.png (dir ++ [.pngName i]) (.pngC i) w1 with
      | (w2, some e) => (w2, some e)
      | (w2, none) =>
        match convOne c.webp (dir ++ [.webpName i]) (.webpC i) w2 with
        | (w3, some e) => (w3, some e)
        | (w3, none) => convLottie c.lottie dir i w3

/-! ### Single-item pipeline (download_and_send_sticker, lines 173-237) -/

def jobPath (suffix : ℕ) : FPath := [.outRoot, .jobDir suffix]

/-- The per-format body of `download_and_send_sticker` (lines 195-234),
given the workspace `dirP` holding the downloaded payload. -/
def singleFormatStep (co : ConvOk) (fmt : Fmt) (dirP : FPath) (w : World) : World × Option PyErr :=
  match fmt with
  | .gif =>
    match convOne co.gif (dirP ++ [.gifName 1]) (.gifC 1) w with
    | (w1, some e) => (w1, some e)
    | (w1, none) =>
      match buildZip w1 (dirP ++ [.zipSingle]) [dirP ++ [.gifName 1]] with
      | (w2, some e) => (w2, some e)
      | (w2, none) =>
        match send_zip_file w2 (dirP ++ [.zipSingle]) with
        | (w3, some e) => (w3, some e)
        | (w3, none) => ({ w3 with fs := w3.fs.removeFile (dirP ++ [.gifName 1]) }, none)
  | .png =>
    match convOne co.png (dirP ++ [.pngName 1]) (.pngC 1) w with
    | (w1, some e) => (w1, some e)
    | (w1, none) =>
      match send_document w1 (dirP ++ [.pngName 1]) with
      | (w2, some e) => (w2, some e)
      | (w2, none) => ({ w2 with fs := w2.fs.removeFile (dirP ++ [.pngName 1]) }, none)
  | .webp =>
    match convOne co.webp (dirP ++ [.webpName 1]) (.webpC 1) w with
    | (w1, some e) => (w1, some e)
    | (w1, none) =>
      match buildZip w1 (dirP ++ [.zipSingle]) [dirP ++ [.webpName 1]] with
      | (w2, some e) => (w2, some e)
      | (w2, none) =>
        match send_zip_file w2 (dirP ++ [.zipSingle]) with
        | (w3, some e) => (w3, some e)
        | (w3, none) => ({ w3 with fs := w3.fs.removeFile (dirP ++ [.webpName 1]) }, none)
  | .lottie =>
    match convLottie co.lottie dirP 1 w with
    | (w1, some e) => (w1, some e)
    | (w1, none) =>
      match send_document w1 (dirP ++ [.txtName 1]) with
      | (w2, some e) => (w2, some e)
      | (w2, none) => ({ w2 with fs := w2.fs.removeFile (dirP ++ [.txtName 1]) }, none)
  | .all =>
    match convOne co.gif (dirP ++ [.gifName 1]) (.gifC 1) w with
    | (w1, some e) => (w1, some e)
    | (w1, none) =>
      match convOne co.png (dirP ++ [.pngName 1]) (.pngC 1) w1 with
      | (w2, some e) => (w2, some e)
      | (w2, none) =>
        match convOne co.webp (dirP ++ [.webpName 1]) (.webpC 1) w2 with
        | (w3, some e) => (w3, some e)
        | (w3, none) =>
          match convLottie co.lottie dirP 1 w3 with
          | (w4, some e) => (w4, some e)
          | (w4, none) =>
            match buildZip w4 (dirP ++ [.zipSingle])
                [dirP ++ [.gifName 1], dirP ++ [.pngName 1],
                  dirP ++ [.webpName 1], dirP ++ [.txtName 1]] with
            | (w5, some e) => (w5, some e)
            | (w5, none) =>
              match send_zip_file w5 (dirP ++ [.zipSingle]) with
              | (w6, some e) => (w6, some e)
              | (w6, none) =>
                let fs1 := w6.fs.removeFile (dirP ++ [.gifName 1])
                let fs2 := fs1.removeFile (dirP ++ [.pngName 1])
                let fs3 := fs2.removeFile (dirP ++ [.webpName 1])
                let fs4 := fs3.removeFile (dirP ++ [.txtName 1])
                ({ w6 with fs := fs4 }, none)

/-- `download_and_send_sticker`: allocate the workspace, retry-fetch the
payload (`getOk`/`dlOk` say whether the two retry-wrapped calls ultimately
succeed), run the per-format body, then `os.remove(sticker_path)` and
`os.rmdir(dir_path)`.  A raised exception leaves the world as it was at the
raise point. -/
def download_and_send_sticker (co : ConvOk) (getOk dlOk : Bool) (fmt : Fmt) (suffix : ℕ)
    (w : World) : World × Option PyErr :=
  let dirP := jobPath suffix
  if w.fs.hasDir dirP then (w, some .fsErr)
  else
    let w := { w with fs := w.fs.mkdir dirP }
    if !getOk then (w, some .netErr)
    else if !dlOk then (w, some .netErr)
    else
      let w := { w with fs := w.fs.write (dirP ++ [.tgsName 1]) (.tgsC 1) }
      match singleFormatStep co fmt dirP w with
      | (w1, some e) => (w1, some e)
      | (w1, none) =>
        let w2 : World := { w1 with fs := w1.fs.removeFile (dirP ++ [.tgsName 1]) }
        match w2.fs.rmdir dirP with
        | .ok fs => ({ w2 with fs := fs }, none)
        | .error e => (w2, some e)

/-- The `just_one` branch of `handle_download` (lines 160-171): progress
message, pipeline call, and on any exception a log entry and a failure
message — with no cleanup in the handler. -/
def handle_download_single (co : ConvOk) (getOk dlOk : Bool) (fmt : Fmt) (suffix : ℕ)
    (w : World) : World :=
  let w := { w with sent := w.sent ++ [.text "Downloading the sticker..."] }
  match download_and_send_sticker co getOk dlOk fmt suffix w with
  | (w1, none) => w1
  | (w1, some _) =>
    { w1 with
      logs := w1.logs ++ [.jobError]
      sent := w1.sent ++ [.text "An error occurred while downloading the sticker(s)."] }

/-! ### Whole-collection pipeline (download_and_send_sticker_set, lines 239-312) -/

/-- One iteration of the sticker-set loop (lines 272-296): skip non-animated
items; retry-fetch the payload (`fetchOk i` is the combined outcome of the
two retry-wrapped calls); convert; any exception is logged and the loop
continues. -/
def processItem (co : ℕ → ConvOk) (fetchOk : ℕ → Bool) (fmt : Fmt) (tempP : FPath)
    (i : ℕ) (animated : Bool) (w : World) : World :=
  if animated then
    if fetchOk i then
      let w := { w with fs := w.fs.write (tempP ++ [.tgsName i]) (.tgsC i) }
      match convertFmt (co i) fmt tempP i w with
      | (w1, none) => w1
      | (w1, some _) => { w1 with logs := w1.logs ++ [.itemError i] }
    else
      { w with logs := w.logs ++ [.itemError i] }
  else w

/-- `for index, sticker in enumerate(sticker_set.stickers, start=1)`. -/
def setLoop (co : ℕ → ConvOk) (fetchOk : ℕ → Bool) (fmt : Fmt) (tempP : FPath) :
    ℕ → List Bool → World → World
  | _, [], w => w
  | i, a :: rest, w =>
    setLoop co fetchOk fmt tempP (i + 1) rest (processItem co fetchOk fmt tempP i a w)

/-- The bins the splitter builds for the current listing of `src`. -/
def splitBins (sz : Content → ℚ) (C : ℚ) (fs : FS) (src : FPath) :
    List (List (FPath × Content)) :=
  greedySplit (fun e => sz e.2) C (fs.listFiles src)

/-- `shutil.move(file_path, current_dir)`. -/
def moveTo (dest : FPath) (fs : FS) (e : FPath × Content) : FS :=
  (fs.removeFile e.1).write (dest ++ [basename e.1]) e.2

/-- Create `dir_k` and move each of its bin's files into it, for each bin in
order. -/
def placeBins (dest : FPath) : ℕ → List (List (FPath × Content)) → FS → FS
  | _, [], fs => fs
  | k, b :: rest, fs =>
    let fs := fs.mkdir (dest ++ [.binDir k])
    let fs := b.foldl (moveTo (dest ++ [.binDir k])) fs
    placeBins dest (k + 1) rest fs

/-- `split_files_into_directories(src_dir, dest_dir, max_size_mb)` (lines
111-138): create the destination if absent, then run the greedy loop,
moving each listed file into its bin directory. -/
def split_files_into_directories (sz : Content → ℚ) (fs : FS) (src dest : FPath) (C : ℚ) : FS :=
  let fs := if fs.hasDir dest then fs else fs.mkdir dest
  placeBins dest 0 (splitBins sz C fs src) fs

def binIdx (n : FName) : ℕ :=
  match n with
  | .binDir k => k
  | _ => 0

/-- The delivery loop of the set pipeline (lines 301-309): for each split
subdirectory, build `{base}_{subdir}.zip` from the files under it and send
it. -/
def zipLoop (dirP : FPath) : List FPath → World → World × Option PyErr
  | [], w => (w, none)
  | d :: rest, w =>
    let zipP := dirP ++ [.zipBin (binIdx (basename d))]
    match buildZip w zipP ((w.fs.listFiles d).map Prod.fst) with
    | (w1, some e) => (w1, some e)
    | (w1, none) =>
      match send_zip_file w1 zipP with
      | (w2, some e) => (w2, some e)
      | (w2, none) => zipLoop dirP rest w2

/-- `download_and_send_sticker_set`: allocate workspace and `temp`, run the
per-item loop, split `temp` into 49 MB bins under `split`, zip and send each
bin, then remove `temp` and `split` (and nothing else). -/
def download_and_send_sticker_set (sz : Content → ℚ) (co : ℕ → ConvOk) (fetchOk : ℕ → Bool)
    (fmt : Fmt) (suffix : ℕ) (stickers : List Bool) (w : World) : World × Option PyErr :=
  let dirP := jobPath suffix
  if w.fs.hasDir dirP then (w, some .fsErr)
  else
    let tempP := dirP ++ [.tempDir]
    let w := { w with fs := (w.fs.mkdir dirP).mkdir tempP }
    let w := setLoop co fetchOk fmt tempP 1 stickers w
    let splitP := dirP ++ [.splitDir]
    let w := { w with fs := split_files_into_directories sz w.fs tempP splitP 49 }
    match zipLoop dirP (w.fs.listDirs splitP) w with
    | (w1, some e) => (w1, some e)
    | (w1, none) => ({ w1 with fs := (w1.fs.rmtree tempP).rmtree splitP }, none)

/-- The `whole_set` branch of `handle_download`. -/
def handle_download_set (sz : Content → ℚ) (co : ℕ → ConvOk) (fetchOk : ℕ → Bool)
    (fmt : Fmt) (suffix : ℕ) (stickers : List Bool) (w : World) : World :=
  let w := { w with sent := w.sent ++ [.text "Downloading the whole set..."] }
  match download_and_send_sticker_set sz co fetchOk fmt suffix stickers w with
  | (w1, none) => w1
  | (w1, some _) =>
    { w1 with
      logs := w1.logs ++ [.jobError]
      sent := w1.sent ++ [.text "An error occurred while downloading the sticker(s)."] }

/-! ### Expected shapes of the set loop's effects (used to state the claims) -/

/-- The content the pipeline stores under each generated file name. -/
def contOf (n : FName) : Content :=
  match n with
  | .tgsName i => .tgsC i
  | .gifName i => .gifC i
  | .pngName i => .pngC i
  | .webpName i => .webpC i
  | .txtName i => .lotC i
  | _ => .tgsC 0

/-- Names of the files left in `temp` by the conversion block for item `i`:
for `format == "all"` the converters run in sequence and a failure aborts
the remaining ones. -/
def outNames (c : ConvOk) (fmt : Fmt) (i : ℕ) : List FName :=
  match fmt with
  | .gif => if c.gif then [.gifName i] else []
  | .png => if c.png then [.pngName i] else []
  | .webp => if c.webp then [.webpName i] else []
  | .lottie => if c.lottie then [.txtName i] else []
  | .all =>
    if c.gif then
      .gifName i ::
        (if c.png then
          .pngName i ::
            (if c.webp then
              .webpName i :: (if c.lottie then [.txtName i] else [])
            else [])
        else [])
    else []

/-- Names of all files item `i` leaves in `temp`: the downloaded payload
plus the converted outputs, or nothing when the item is skipped or its
fetch fails. -/
def itemNames (co : ℕ → ConvOk) (fetchOk : ℕ → Bool) (fmt : Fmt)
    (i : ℕ) (animated : Bool) : List FName :=
  if animated && fetchOk i then .tgsName i :: outNames (co i) fmt i else []

/-- Converted outputs item `i` leaves in `temp` for the chosen format. -/
def itemOutputs (c : ConvOk) (fmt : Fmt) (tempP : FPath) (i : ℕ) : List (FPath × Content) :=
  (outNames c fmt i).map (fun n => (tempP ++ [n], contOf n))

/-- All files item `i` leaves in `temp`. -/
def itemFiles (co : ℕ → ConvOk) (fetchOk : ℕ → Bool) (fmt : Fmt) (tempP : FPath)
    (i : ℕ) (animated : Bool) : List (FPath × Content) :=
  (itemNames co fetchOk fmt i animated).map (fun n => (tempP ++ [n], contOf n))

/-- Names of all files the loop leaves in `temp`, from item index `i` on. -/
def loopNames (co : ℕ → ConvOk) (fetchOk : ℕ → Bool) (fmt : Fmt) :
    ℕ → List Bool → List FName
  | _, [] => []
  | i, a :: rest =>
    itemNames co fetchOk fmt i a ++ loopNames co fetchOk fmt (i + 1) rest

/-- Whether the whole conversion block for one item succeeds. -/
def convOkFor (c : ConvOk) (fmt : Fmt) : Bool :=
  match fmt with
  | .gif => c.gif
  | .png => c.png
  | .webp => c.webp
  | .lottie => c.lottie
  | .all => c.gif && c.png && c.webp && c.lottie

/-- Log entries item `i` produces: one item-local error when its fetch or
conversion fails. -/
def itemLogs (co : ℕ → ConvOk) (fetchOk : ℕ → Bool) (fmt : Fmt)
    (i : ℕ) (animated : Bool) : List LogEvent :=
  if animated then
    (if fetchOk i && convOkFor (co i) fmt then [] else [.itemError i])
  else []

/-- All files the loop leaves in `temp`, from item index `i` on. -/
def loopFiles (co : ℕ → ConvOk) (fetchOk : ℕ → Bool) (fmt : Fmt) (tempP : FPath)
    (i : ℕ) (stickers : List Bool) : List (FPath × Content) :=
  (loopNames co fetchOk fmt i stickers).map (fun n => (tempP ++ [n], contOf n))

def loopLogs (co : ℕ → ConvOk) (fetchOk : ℕ → Bool) (fmt : Fmt) :
    ℕ → List Bool → List LogEvent
  | _, [] => []
  | i, a :: rest => itemLogs co fetchOk fmt i a ++ loopLogs co fetchOk fmt (i + 1) rest

/-- All entries of all archives delivered so far, in delivery order. -/
def deliveredEntries (w : World) : List (FName × Content) :=
  (w.sent.filterMap (fun m =>
    match m with
    | .document _ (.zipC es) => some es
    | _ => none)).flatten

/-- The files as laid out after `placeBins dest k bins`: bin `k + j` holds
its files under `dest/dir_(k+j)/`. -/
def placedFiles (dest : FPath) : ℕ → List (List (FPath × Content)) → List (FPath × Content)
  | _, [] => []
  | k, b :: rest =>
    b.map (fun e => (dest ++ [.binDir k] ++ [basename e.1], e.2)) ++
      placedFiles dest (k + 1) rest

/-- The bin directories `dest/dir_k, dest/dir_(k+1), …` created by
`placeBins`. -/
def binDirsFrom (dest : FPath) : ℕ → ℕ → List FPath
  | _, 0 => []
  | k, n + 1 => (dest ++ [.binDir k]) :: binDirsFrom dest (k + 1) n

/-- The archive messages the set pipeline delivers: one zip per bin, whose
entries are the bin's files under their base names. -/
def binMsgs : ℕ → List (List (FPath × Content)) → List Msg
  | _, [] => []
  | k, b :: rest =>
    Msg.document (.zipBin k) (.zipC (b.map (fun e => (basename e.1, e.2)))) ::
      binMsgs (k + 1) rest

/-- Constructor tag of a file name (used for distinctness). -/
def nameKind (n : FName) : ℕ :=
  match n with
  | .outRoot => 0
  | .jobDir _ => 1
  | .tempDir => 2
  | .splitDir => 3
  | .binDir _ => 4
  | .tgsName _ => 5
  | .gifName _ => 6
  | .pngName _ => 7
  | .webpName _ => 8
  | .jsonName _ => 9
  | .txtName _ => 10
  | .zipSingle => 11
  | .zipBin _ => 12

/-- The numeric index carried by a file name (used for distinctness). -/
def nameIdx (n : FName) : ℕ :=
  match n with
  | .outRoot => 0
  | .jobDir s => s
  | .tempDir => 0
  | .splitDir => 0
  | .binDir k => k
  | .tgsName i => i
  | .gifName i => i
  | .pngName i => i
  | .webpName i => i
  | .jsonName i => i
  | .txtName i => i
  | .zipSingle => 0
  | .zipBin k => k

/-! ## Theorems -/

/-! ### Splitter lemmas -/

theorem greedyGo_flatten {α : Type} (size : α → ℚ) (C : ℚ) :
    ∀ (l cur : List α) (s : ℚ), (greedyGo size C l cur s).flatten = cur ++ l := by
  intro l
  induction l with
  | nil => intro cur s; simp [greedyGo]
  | cons a rest ih =>
    intro cur s
    by_cases h : s + size a > C
    · simp [greedyGo, h, ih]
    · simp [greedyGo, h, ih]

theorem greedySplit_flatten {α : Type} (size : α → ℚ) (C : ℚ) (files : List α) :
    (greedySplit size C files).flatten = files := by
  simp [greedySplit, greedyGo_flatten]

theorem greedyGo_valid {α : Type} (size : α → ℚ) (C : ℚ) :
    ∀ (l cur : List α) (s : ℚ), (∀ a ∈ l, 0 ≤ size a) →
      s = (cur.map size).sum → validBin size C cur →
      ∀ b ∈ greedyGo size C l cur s, validBin size C b := by
  intro l
  induction l with
  | nil =>
    intro cur s _ _ hcur b hb
    simp only [greedyGo, List.mem_singleton] at hb
    exact hb ▸ hcur
  | cons a rest ih =>
    intro cur s hnn hs hcur b hb
    have hnnrest : ∀ x ∈ rest, 0 ≤ size x := fun x hx => hnn x (List.mem_cons_of_mem _ hx)
    have hnna : 0 ≤ size a := hnn a (List.mem_cons_self _ _)
    by_cases h : s + size a > C
    · simp only [greedyGo, if_pos h, List.mem_cons] at hb
      rcases hb with hb | hb
      · exact hb ▸ hcur
      · refine ih [a] (size a) hnnrest (by simp) ?_ b hb
        rcases le_or_lt (size a) C with h1 | h1
        · exact Or.inl (by simpa using h1)
        · exact Or.inr ⟨a, rfl, h1⟩
    · simp only [greedyGo, if_neg h] at hb
      push_neg at h
      refine ih (cur ++ [a]) (s + size a) hnnrest (by simp [hs]) ?_ b hb
      exact Or.inl (by simpa [hs] using h)

theorem greedySplit_valid {α : Type} (size : α → ℚ) (C : ℚ) (hC : 0 ≤ C)
    (files : List α) (hnn : ∀ a ∈ files, 0 ≤ size a) :
    ∀ b ∈ greedySplit size C files, validBin size C b := by
  exact greedyGo_valid size C files [] 0 hnn (by simp) (Or.inl (by simpa using hC))

theorem greedyGo_length {α : Type} (size : α → ℚ) (C : ℚ) :
    ∀ (l cur : List α) (s : ℚ), (greedyGo size C l cur s).length = gcount C (l.map size) s := by
  intro l
  induction l with
  | nil => intro cur s; simp [greedyGo, gcount]
  | cons a rest ih =>
    intro cur s
    by_cases h : s + size a > C
    · simp [greedyGo, gcount, h, ih, Nat.add_comm]
    · simp [greedyGo, gcount, h, ih]

theorem gcount_mono_and_break (C : ℚ) :
    ∀ (l : List ℚ), (∀ x ∈ l, 0 ≤ x) →
      (∀ s₁ s₂ : ℚ, 0 ≤ s₁ → s₁ ≤ s₂ → gcount C l s₁ ≤ gcount C l s₂)
      ∧ (∀ x y : ℚ, 0 ≤ y → y ≤ x → gcount C l x ≤ 1 + gcount C l y) := by
  intro l
  induction l with
  | nil => intro _; exact ⟨fun _ _ _ _ => le_refl _, fun _ _ _ _ => by simp [gcount]⟩
  | cons a rest ih =>
    intro hnn
    have hnna : 0 ≤ a := hnn a (List.mem_cons_self _ _)
    obtain ⟨IHM, IHN⟩ := ih (fun x hx => hnn x (List.mem_cons_of_mem _ hx))
    constructor
    · intro s₁ s₂ h0 hle
      by_cases h1 : s₁ + a > C
      · have h2 : s₂ + a > C := lt_of_lt_of_le h1 (by linarith)
        simp [gcount, h1, h2]
      · by_cases h2 : s₂ + a > C
        · simp only [gcount, if_neg h1, if_pos h2]
          exact IHN (s₁ + a) a hnna (by linarith)
        · simp only [gcount, if_neg h1, if_neg h2]
          exact IHM (s₁ + a) (s₂ + a) (by linarith) (by linarith)
    · intro x y hy hle
      by_cases h1 : x + a > C
      · by_cases h2 : y + a > C
        · simp only [gcount, if_pos h1, if_pos h2]
          omega
        · simp only [gcount, if_pos h1, if_neg h2]
          have := IHM a (y + a) hnna (by linarith)
          omega
      · have h2 : ¬ (y + a > C) := by push_neg at h1 ⊢; linarith
        simp only [gcount, if_neg h1, if_neg h2]
        exact IHN (x + a) (y + a) (by linarith) (by linarith)

theorem gcount_fill (C : ℚ) :
    ∀ (b rest : List ℚ) (s : ℚ), (∀ x ∈ b, 0 ≤ x) → 0 ≤ s → s + b.sum ≤ C →
      gcount C (b ++ rest) s = gcount C rest (s + b.sum) := by
  intro b
  induction b with
  | nil => intro rest s _ _ _; simp
  | cons a b' ih =>
    intro rest s hnn hs hle
    have hnna : 0 ≤ a := hnn a (List.mem_cons_self _ _)
    have hb' : 0 ≤ b'.sum := List.sum_nonneg (fun x hx => hnn x (List.mem_cons_of_mem _ hx))
    have hfit : ¬ (s + a > C) := by
      push_neg
      have : s + a ≤ s + (a :: b').sum := by simp; linarith
      exact le_trans this hle
    simp only [List.cons_append, gcount, if_neg hfit, List.append_eq]
    rw [ih rest (s + a) (fun x hx => hnn x (List.mem_cons_of_mem _ hx)) (by linarith)
      (by simp at hle; linarith)]
    congr 1
    rw [List.sum_cons]
    ring

theorem gcount_le_parts (C : ℚ) :
    ∀ (parts : List (List ℚ)), (∀ x ∈ parts.flatten, 0 ≤ x) → (∀ b ∈ parts, b.sum ≤ C) →
      gcount C parts.flatten 0 ≤ Nat.max 1 parts.length := by
  intro parts
  induction parts with
  | nil => intro _ _; simp [gcount]
  | cons b parts' ih =>
    intro hnn hval
    have hnnb : ∀ x ∈ b, 0 ≤ x := by
      intro x hx
      exact hnn x (List.mem_flatten.mpr ⟨b, List.mem_cons_self _ _, hx⟩)
    have hnnrest : ∀ x ∈ parts'.flatten, 0 ≤ x := by
      intro x hx
      rcases List.mem_flatten.mp hx with ⟨c, hc, hxc⟩
      exact hnn x (List.mem_flatten.mpr ⟨c, List.mem_cons_of_mem _ hc, hxc⟩)
    have hbsum : b.sum ≤ C := hval b (List.mem_cons_self _ _)
    have hb0 : 0 ≤ b.sum := List.sum_nonneg hnnb
    have hfill : gcount C (b ++ parts'.flatten) 0 = gcount C parts'.flatten b.sum := by
      have := gcount_fill C b parts'.flatten 0 hnnb (le_refl 0) (by linarith)
      simpa using this
    rw [List.flatten_cons, hfill]
    rcases eq_or_ne parts' [] with h | h
    · subst h
      simp [gcount]
    · have hlen : 1 ≤ parts'.length := List.length_pos.mpr h
      obtain ⟨_, IHN⟩ := gcount_mono_and_break C parts'.flatten hnnrest
      have h1 : gcount C parts'.flatten b.sum ≤ 1 + gcount C parts'.flatten 0 :=
        IHN b.sum 0 (le_refl 0) hb0
      have h2 : gcount C parts'.flatten 0 ≤ Nat.max 1 parts'.length :=
        ih hnnrest (fun x hx => hval x (List.mem_cons_of_mem _ hx))
      have h3 : Nat.max 1 parts'.length = parts'.length := Nat.max_eq_right hlen
      have h4 : Nat.max 1 (b :: parts').length = parts'.length + 1 := by
        rw [List.length_cons]
        exact Nat.max_eq_right (by omega)
      rw [h4]
      rw [h3] at h2
      omega

theorem greedyGo_eq_spec {α : Type} (size : α → ℚ) (C : ℚ) :
    ∀ (l cur : List α) (s : ℚ) (closed : List (List α)),
      closed ++ greedyGo size C l cur s =
        (l.foldl
          (fun st a =>
            if st.2.2 + size a > C then
              (st.1 ++ [st.2.1], [a], size a)
            else
              (st.1, st.2.1 ++ [a], st.2.2 + size a))
          (closed, cur, s)).1 ++
        [(l.foldl
          (fun st a =>
            if st.2.2 + size a > C then
              (st.1 ++ [st.2.1], [a], size a)
            else
              (st.1, st.2.1 ++ [a], st.2.2 + size a))
          (closed, cur, s)).2.1] := by
  intro l
  induction l with
  | nil => intro cur s closed; simp [greedyGo]
  | cons a rest ih =>
    intro cur s closed
    by_cases h : s + size a > C
    · have := ih [a] (size a) (closed ++ [cur])
      simp only [greedyGo, if_pos h, List.foldl_cons]
      simpa [h] using this
    · have := ih (cur ++ [a]) (s + size a) closed
      simp only [greedyGo, if_neg h, List.foldl_cons]
      simpa [h] using this

theorem greedySplit_eq_specPack {α : Type} (size : α → ℚ) (C : ℚ) (files : List α) :
    greedySplit size C files = specPack size C files := by
  have := greedyGo_eq_spec size C files [] 0 []
  simpa [greedySplit, specPack] using this

/-! ### Claim C1: the splitter is the greedy packing, partitions its input,
and respects the ceiling except for single oversized files -/

/-- **C1.** For the files listed from the source directory (in listing
order) and any nonnegative sizes and ceiling, `split_files_into_directories`
bins them (`splitBins`) so that: the bins concatenate back to the input
listing (every file in exactly one bin, order kept); every bin is within the
ceiling or is a single oversized file; the assignment is exactly the greedy
left-to-right packing described by the spec (`specPack`); and the bin count
is minimal among all order-preserving packings into bins of total size at
most the ceiling. -/
theorem split_files_greedy_correct (sz : Content → ℚ) (C : ℚ) (fs : FS) (src : FPath)
    (hnn : ∀ e ∈ fs.listFiles src, 0 ≤ sz e.2) (hC : 0 ≤ C) :
    (splitBins sz C fs src).flatten = fs.listFiles src
    ∧ (∀ b ∈ splitBins sz C fs src,
        (b.map (fun e => sz e.2)).sum ≤ C ∨ ∃ e, b = [e] ∧ C < sz e.2)
    ∧ splitBins sz C fs src = specPack (fun e => sz e.2) C (fs.listFiles src)
    ∧ (∀ parts : List (List (FPath × Content)),
        parts.flatten = fs.listFiles src →
        (∀ b ∈ parts, (b.map (fun e => sz e.2)).sum ≤ C) →
        fs.listFiles src ≠ [] →
        (splitBins sz C fs src).length ≤ parts.length) := by
  refine ⟨greedySplit_flatten _ _ _, ?_, greedySplit_eq_specPack _ _ _, ?_⟩
  · intro b hb
    have hb' : b ∈ greedySplit (fun e => sz e.2) C (fs.listFiles src) := by
      simpa [splitBins] using hb
    have := greedySplit_valid (fun e => sz e.2) C hC (fs.listFiles src) hnn b hb'
    simpa [validBin] using this
  · intro parts hflat hval hne
    have hlen : (splitBins sz C fs src).length =
        gcount C ((fs.listFiles src).map (fun e => sz e.2)) 0 :=
      greedyGo_length _ C _ [] 0
    have hmapflat : (parts.map (List.map (fun e => sz e.2))).flatten =
        (fs.listFiles src).map (fun e => sz e.2) := by
      rw [← List.map_flatten, hflat]
    have hnn' : ∀ x ∈ (parts.map (List.map (fun e => sz e.2))).flatten, 0 ≤ x := by
      rw [hmapflat]
      intro x hx
      rcases List.mem_map.mp hx with ⟨e, he, rfl⟩
      exact hnn e he
    have hval' : ∀ b ∈ parts.map (List.map (fun e => sz e.2)), b.sum ≤ C := by
      intro b hb
      rcases List.mem_map.mp hb with ⟨b₀, hb₀, rfl⟩
      exact hval b₀ hb₀
    have hmain := gcount_le_parts C (parts.map (List.map (fun e => sz e.2))) hnn' hval'
    rw [hmapflat] at hmain
    have hpne : parts ≠ [] := by
      intro h
      rw [h] at hflat
      exact hne hflat.symm
    have hp1 : 1 ≤ parts.length := List.length_pos.mpr hpne
    have : Nat.max 1 (parts.map (List.map (fun e => sz e.2))).length = parts.length := by
      rw [List.length_map]
      exact Nat.max_eq_right hp1
    rw [this] at hmain
    omega

/-- Concrete instance of the C1 theorem: two 30-size files with ceiling 49
are binned as two singleton bins that concatenate back to the listing. -/
theorem split_files_greedy_correct_witness :
    (splitBins (fun _ => 30) 49
        ⟨[[.outRoot]], [([.outRoot, .tgsName 1], .tgsC 1), ([.outRoot, .tgsName 2], .tgsC 2)]⟩
        [.outRoot]).flatten =
      (FS.listFiles
        ⟨[[.outRoot]], [([.outRoot, .tgsName 1], .tgsC 1), ([.outRoot, .tgsName 2], .tgsC 2)]⟩
        [.outRoot]) :=
  (split_files_greedy_correct (fun _ => 30) 49
    ⟨[[.outRoot]], [([.outRoot, .tgsName 1], .tgsC 1), ([.outRoot, .tgsName 2], .tgsC 2)]⟩
    [.outRoot] (by intro e _; norm_num) (by norm_num)).1

/-! ### Claim C2: retry executor call counts, result and logging -/

/-- **C2.** With `retries = 5`: an operation failing `k < 5` times and then
succeeding makes `retry_async` return the success value after exactly `k+1`
invocations, with each failed attempt's error logged in order; an operation
failing on all attempts makes it propagate the fifth error after exactly 5
invocations, every failure logged. -/
theorem retry_async_correct {E A : Type} (op : ℕ → Except E A) (err : ℕ → E) (v : A)
    (d : ℚ) (k : ℕ) :
    (k < 5 → (∀ i, i < k → op i = .error (err i)) → op k = .ok v →
      retry_async op 5 d =
        ⟨some (.ok v), k + 1, (List.range k).map err,
          (List.range k).map (fun i => d * 2 ^ i)⟩)
    ∧ ((∀ i, op i = .error (err i)) →
      retry_async op 5 d =
        ⟨some (.error (err 4)), 5, (List.range 5).map err,
          (List.range 4).map (fun i => d * 2 ^ i)⟩) := by
  constructor
  · intro hk herr hok
    interval_cases k <;> simp_all [retry_async, retryGo, List.range_succ]
  · intro h
    simp [retry_async, retryGo, h, List.range_succ]

/-- Concrete instance of the C2 theorem: an operation failing twice then
succeeding is invoked 3 times and returns the success value. -/
theorem retry_async_correct_witness :
    retry_async (fun i => if i < 2 then Except.error i else Except.ok 99) 5 1 =
      ⟨some (.ok 99), 3, [0, 1], [1, 2]⟩ := by
  have h := (retry_async_correct (fun i => if i < 2 then Except.error i else Except.ok 99)
    (fun i => i) 99 1 2).1 (by norm_num) (fun i hi => by interval_cases i <;> rfl) (by rfl)
  rw [h]
  norm_num [List.range_succ]

/-! ### Claim C6: delays performed by the retry executor (corrected)

The code sleeps only when `attempt < retries - 1` (line 41), so with the
default `retries = 5` an always-failing operation performs exactly four
sleeps, 1s 2s 4s 8s; the 16s delay of the claim never happens because the
fifth failure re-raises immediately. -/

/-- **C6 (counterexample).** For an operation failing on every attempt with
default parameters, the performed delays are `[1, 2, 4, 8]`, not the
claimed `[1, 2, 4, 8, 16]`. -/
theorem retry_delays_counterexample :
    (retry_async (fun i => (Except.error i : Except ℕ ℕ)) 5 1).delays = [1, 2, 4, 8] ∧
    (retry_async (fun i => (Except.error i : Except ℕ ℕ)) 5 1).delays ≠ [1, 2, 4, 8, 16] := by
  constructor
  · norm_num [retry_async, retryGo]
  · norm_num [retry_async, retryGo]

/-- **C6 (amended).** The wait before retry `i+1` is `delay * 2 ^ i`
(zero-based), and no wait follows the final failed attempt, so with default
parameters an always-failing operation performs the delays 1s, 2s, 4s, 8s. -/
theorem retry_delays_amended {E A : Type} (op : ℕ → Except E A) (err : ℕ → E)
    (h : ∀ i, op i = .error (err i)) :
    (retry_async op 5 1).delays = (List.range 4).map (fun i => (1 : ℚ) * 2 ^ i) ∧
    (retry_async op 5 1).delays = [1, 2, 4, 8] := by
  constructor
  · simp [retry_async, retryGo, h, List.range_succ]
  · norm_num [retry_async, retryGo, h]

/-- Concrete instance of the amended C6 theorem. -/
theorem retry_delays_amended_witness :
    (retry_async (fun i => (Except.error i : Except ℕ ℕ)) 5 1).delays = [1, 2, 4, 8] :=
  (retry_delays_amended (fun i => (Except.error i : Except ℕ ℕ)) (fun i => i)
    (fun _ => rfl)).2

/-! ### Claim C7: stop resets the session -/

/-- **C7.** From any session contents, the stop handler clears every
recorded field and the resulting session is `Idle`. -/
theorem stop_resets_session (u : UserData) :
    (stop u).1 = UserData.empty ∧
    sessionState (stop u).1 = .Idle ∧
    (stop u).1.sticker_set_name = none ∧
    (stop u).1.sticker = none ∧
    (stop u).1.download_type = none :=
  ⟨rfl, rfl, rfl, rfl, rfl⟩

/-! ### Claim C8: a non-animated item in Idle changes nothing -/

/-- **C8.** In an `Idle` session, receiving a non-animated sticker leaves
the stored fields untouched, keeps the session `Idle`, and emits exactly the
rejection message. -/
theorem handle_sticker_not_animated (u : UserData) (s : Sticker)
    (hu : sessionState u = .Idle) (hs : s.is_animated = false) :
    handle_sticker u (some s) = (u, [.text "Please send an animated sticker."]) ∧
    sessionState (handle_sticker u (some s)).1 = .Idle := by
  constructor
  · simp [handle_sticker, hs]
  · simp [handle_sticker, hs, hu]

/-- Concrete instance of the C8 theorem at the empty session. -/
theorem handle_sticker_not_animated_witness :
    handle_sticker UserData.empty (some ⟨"s", false⟩) =
      (UserData.empty, [.text "Please send an animated sticker."]) ∧
    sessionState (handle_sticker UserData.empty (some ⟨"s", false⟩)).1 = .Idle :=
  handle_sticker_not_animated UserData.empty ⟨"s", false⟩ rfl rfl

/-! ### Claim C5: single-item delivery policy -/

/-- **C5.** Every single-item job that completes without error delivers
exactly the messages of the per-format table: PNG and LOTTIE send one direct
(non-archive) document; GIF and WEBP send one zip holding the single
converted file; ALL sends one zip holding exactly the four outputs (gif,
png, webp, lottie-renamed-text).  Archive entry names are bare base names
(single path components), never the scratch-directory path, and no file —
in particular no archive — remains on disk afterwards. -/
theorem single_item_delivery (co : ConvOk) (getOk dlOk : Bool) (fmt : Fmt) (suffix : ℕ)
    (h : (download_and_send_sticker co getOk dlOk fmt suffix World.init).2 = none) :
    (download_and_send_sticker co getOk dlOk fmt suffix World.init).1.sent =
      (match fmt with
        | .png => [Msg.document (.pngName 1) (.pngC 1)]
        | .lottie => [Msg.document (.txtName 1) (.lotC 1)]
        | .gif => [Msg.document .zipSingle (.zipC [(.gifName 1, .gifC 1)])]
        | .webp => [Msg.document .zipSingle (.zipC [(.webpName 1, .webpC 1)])]
        | .all => [Msg.document .zipSingle (.zipC [(.gifName 1, .gifC 1), (.pngName 1, .pngC 1),
            (.webpName 1, .webpC 1), (.txtName 1, .lotC 1)])]) ∧
    (download_and_send_sticker co getOk dlOk fmt suffix World.init).1.fs.files = [] := by
  obtain ⟨cg, cp, cw, cl⟩ := co
  cases fmt <;> cases getOk <;> cases dlOk <;> cases cg <;> cases cp <;> cases cw <;> cases cl <;>
    simp [download_and_send_sticker, singleFormatStep, jobPath, World.init, FS.hasDir,
      FS.mkdir, FS.write, FS.removeFile, FS.lookup, FS.rmdir, childOf, send_document,
      send_zip_file, zipEntries, buildZip, convOne, convLottie, basename,
      removeEntry, removeDirEntry, lookupIn,
      List.cons_prefix_cons, List.prefix_nil, List.nil_prefix, List.dropLast_concat] at h ⊢

/-- Concrete instance of the C5 theorem: format ALL delivers one archive
with exactly the four entries. -/
theorem single_item_delivery_witness :
    (download_and_send_sticker ConvOk.all true true .all 0 World.init).1.sent =
      [Msg.document .zipSingle (.zipC [(.gifName 1, .gifC 1), (.pngName 1, .pngC 1),
        (.webpName 1, .webpC 1), (.txtName 1, .lotC 1)])] ∧
    (download_and_send_sticker ConvOk.all true true .all 0 World.init).1.fs.files = [] :=
  single_item_delivery ConvOk.all true true .all 0 rfl

/-! ### Filesystem lemmas -/

theorem childOf_append (d : FPath) (n : FName) : childOf d (d ++ [n]) := by
  refine ⟨List.dropLast_concat, by simp⟩

theorem basename_append (d : FPath) (n : FName) : basename (d ++ [n]) = n := by
  simp [basename]

theorem fname_ext (a b : FName) (hk : nameKind a = nameKind b) (hi : nameIdx a = nameIdx b) :
    a = b := by
  cases a <;> cases b <;> simp_all [nameKind, nameIdx]

theorem removeEntry_append (p : FPath) (l₁ l₂ : List (FPath × Content)) :
    removeEntry p (l₁ ++ l₂) = removeEntry p l₁ ++ removeEntry p l₂ := by
  induction l₁ with
  | nil => rfl
  | cons e rest ih =>
    by_cases h : e.1 = p <;> simp [removeEntry, h, ih]

theorem removeEntry_cons_of_eq (p : FPath) (e : FPath × Content)
    (rest : List (FPath × Content)) (h : e.1 = p) :
    removeEntry p (e :: rest) = removeEntry p rest := by
  rw [removeEntry, if_pos h]

theorem removeEntry_eq_self (p : FPath) (l : List (FPath × Content))
    (h : ∀ e ∈ l, e.1 ≠ p) : removeEntry p l = l := by
  induction l with
  | nil => rfl
  | cons e rest ih =>
    rw [removeEntry, if_neg (h e (List.mem_cons_self _ _)),
      ih (fun x hx => h x (List.mem_cons_of_mem _ hx))]

theorem lookupIn_append_right (p : FPath) (l₁ l₂ : List (FPath × Content))
    (h : ∀ e ∈ l₁, e.1 ≠ p) : lookupIn p (l₁ ++ l₂) = lookupIn p l₂ := by
  induction l₁ with
  | nil => rfl
  | cons e rest ih =>
    rw [List.cons_append, lookupIn, if_neg (h e (List.mem_cons_self _ _)),
      ih (fun x hx => h x (List.mem_cons_of_mem _ hx))]

theorem lookupIn_of_mem_nodup (p : FPath) (c : Content) (l : List (FPath × Content))
    (hmem : (p, c) ∈ l) (hnd : (l.map Prod.fst).Nodup) : lookupIn p l = some c := by
  induction l with
  | nil => cases hmem
  | cons e rest ih =>
    rcases List.mem_cons.mp hmem with h | h
    · rw [lookupIn, if_pos (by rw [← h])]
      rw [← h]
    · have hp : p ∈ rest.map Prod.fst := List.mem_map.mpr ⟨(p, c), h, rfl⟩
      have hne : e.1 ≠ p := by
        intro hcontra
        rw [List.map_cons, List.nodup_cons] at hnd
        exact hnd.1 (hcontra ▸ hp)
      rw [lookupIn, if_neg hne]
      exact ih h (by rw [List.map_cons, List.nodup_cons] at hnd; exact hnd.2)

theorem childFiles_append (d : FPath) (l₁ l₂ : List (FPath × Content)) :
    childFiles d (l₁ ++ l₂) = childFiles d l₁ ++ childFiles d l₂ := by
  induction l₁ with
  | nil => rfl
  | cons e rest ih =>
    by_cases h : childOf d e.1 <;> simp [childFiles, h, ih]

theorem childFiles_eq_self (d : FPath) (l : List (FPath × Content))
    (h : ∀ e ∈ l, childOf d e.1) : childFiles d l = l := by
  induction l with
  | nil => rfl
  | cons e rest ih =>
    rw [childFiles, if_pos (h e (List.mem_cons_self _ _)),
      ih (fun x hx => h x (List.mem_cons_of_mem _ hx))]

theorem childFiles_eq_nil (d : FPath) (l : List (FPath × Content))
    (h : ∀ e ∈ l, ¬ childOf d e.1) : childFiles d l = [] := by
  induction l with
  | nil => rfl
  | cons e rest ih =>
    rw [childFiles, if_neg (h e (List.mem_cons_self _ _)),
      ih (fun x hx => h x (List.mem_cons_of_mem _ hx))]

theorem childDirs_append (d : FPath) (l₁ l₂ : List FPath) :
    childDirs d (l₁ ++ l₂) = childDirs d l₁ ++ childDirs d l₂ := by
  induction l₁ with
  | nil => rfl
  | cons x rest ih =>
    by_cases h : childOf d x <;> simp [childDirs, h, ih]

theorem pruneFiles_eq_self (p : FPath) (l : List (FPath × Content))
    (h : ∀ e ∈ l, ¬ (p <+: e.1)) : pruneFiles p l = l := by
  induction l with
  | nil => rfl
  | cons e rest ih =>
    rw [pruneFiles, if_neg (h e (List.mem_cons_self _ _)),
      ih (fun x hx => h x (List.mem_cons_of_mem _ hx))]

theorem pruneFiles_eq_nil (p : FPath) (l : List (FPath × Content))
    (h : ∀ e ∈ l, p <+: e.1) : pruneFiles p l = [] := by
  induction l with
  | nil => rfl
  | cons e rest ih =>
    rw [pruneFiles, if_pos (h e (List.mem_cons_self _ _)),
      ih (fun x hx => h x (List.mem_cons_of_mem _ hx))]

theorem pruneDirs_append (p : FPath) (l₁ l₂ : List FPath) :
    pruneDirs p (l₁ ++ l₂) = pruneDirs p l₁ ++ pruneDirs p l₂ := by
  induction l₁ with
  | nil => rfl
  | cons x rest ih =>
    by_cases h : p <+: x <;> simp [pruneDirs, h, ih]

theorem pruneDirs_eq_self (p : FPath) (l : List FPath)
    (h : ∀ d ∈ l, ¬ (p <+: d)) : pruneDirs p l = l := by
  induction l with
  | nil => rfl
  | cons x rest ih =>
    rw [pruneDirs, if_neg (h x (List.mem_cons_self _ _)),
      ih (fun y hy => h y (List.mem_cons_of_mem _ hy))]

theorem pruneDirs_eq_nil (p : FPath) (l : List FPath)
    (h : ∀ d ∈ l, p <+: d) : pruneDirs p l = [] := by
  induction l with
  | nil => rfl
  | cons x rest ih =>
    rw [pruneDirs, if_pos (h x (List.mem_cons_self _ _)),
      ih (fun y hy => h y (List.mem_cons_of_mem _ hy))]

/-! ### Set-loop characterization -/

theorem outNames_mem (c : ConvOk) (fmt : Fmt) (i : ℕ) :
    ∀ n ∈ outNames c fmt i,
      n ∈ [FName.gifName i, .pngName i, .webpName i, .txtName i] := by
  intro n hn
  cases fmt <;> unfold outNames at hn <;> (repeat' split at hn) <;> simp_all <;> tauto

theorem itemNames_mem (co : ℕ → ConvOk) (fetchOk : ℕ → Bool) (fmt : Fmt) (i : ℕ) (a : Bool) :
    ∀ n ∈ itemNames co fetchOk fmt i a,
      n ∈ [FName.tgsName i, .gifName i, .pngName i, .webpName i, .txtName i] := by
  intro n hn
  unfold itemNames at hn
  split at hn
  · rcases List.mem_cons.mp hn with rfl | h
    · simp
    · have := outNames_mem _ fmt i n h
      simp_all
  · cases hn

theorem itemNames_facts (co : ℕ → ConvOk) (fetchOk : ℕ → Bool) (fmt : Fmt) (i : ℕ) (a : Bool) :
    ∀ n ∈ itemNames co fetchOk fmt i a,
      nameIdx n = i ∧ 5 ≤ nameKind n ∧ nameKind n ≤ 10 ∧ nameKind n ≠ 9 := by
  intro n hn
  have h := itemNames_mem co fetchOk fmt i a n hn
  simp only [List.mem_cons, List.not_mem_nil, or_false] at h
  rcases h with rfl | rfl | rfl | rfl | rfl <;> simp [nameIdx, nameKind]

theorem outNames_nodup (c : ConvOk) (fmt : Fmt) (i : ℕ) : (outNames c fmt i).Nodup := by
  cases fmt <;> unfold outNames <;> (repeat' split) <;> simp

theorem itemNames_nodup (co : ℕ → ConvOk) (fetchOk : ℕ → Bool) (fmt : Fmt) (i : ℕ) (a : Bool) :
    (itemNames co fetchOk fmt i a).Nodup := by
  unfold itemNames
  split
  · refine List.nodup_cons.mpr ⟨?_, outNames_nodup _ fmt i⟩
    intro hmem
    have := outNames_mem _ fmt i _ hmem
    simp at this
  · exact List.nodup_nil

theorem loopNames_facts (co : ℕ → ConvOk) (fetchOk : ℕ → Bool) (fmt : Fmt) :
    ∀ (st : List Bool) (i : ℕ), ∀ n ∈ loopNames co fetchOk fmt i st,
      i ≤ nameIdx n ∧ 5 ≤ nameKind n ∧ nameKind n ≤ 10 ∧ nameKind n ≠ 9 := by
  intro st
  induction st with
  | nil => intro i n hn; cases hn
  | cons a rest ih =>
    intro i n hn
    rw [loopNames] at hn
    rcases List.mem_append.mp hn with h | h
    · have := itemNames_facts co fetchOk fmt i a n h
      exact ⟨le_of_eq this.1.symm, this.2⟩
    · have := ih (i + 1) n h
      exact ⟨by omega, this.2⟩

theorem loopNames_nodup (co : ℕ → ConvOk) (fetchOk : ℕ → Bool) (fmt : Fmt) :
    ∀ (st : List Bool) (i : ℕ), (loopNames co fetchOk fmt i st).Nodup := by
  intro st
  induction st with
  | nil => intro i; exact List.nodup_nil
  | cons a rest ih =>
    intro i
    rw [loopNames]
    refine List.Nodup.append (itemNames_nodup co fetchOk fmt i a) (ih (i + 1)) ?_
    intro n hn1 hn2
    have h1 := (itemNames_facts co fetchOk fmt i a n hn1).1
    have h2 := (loopNames_facts co fetchOk fmt rest (i + 1) n hn2).1
    omega

theorem processItem_spec (co : ℕ → ConvOk) (fetchOk : ℕ → Bool) (fmt : Fmt) (tempP : FPath)
    (i : ℕ) (a : Bool) (w : World)
    (hjson : ∀ e ∈ w.fs.files, e.1 ≠ tempP ++ [.jsonName i]) :
    processItem co fetchOk fmt tempP i a w =
      { w with
        fs := ⟨w.fs.dirs, w.fs.files ++ itemFiles co fetchOk fmt tempP i a⟩
        logs := w.logs ++ itemLogs co fetchOk fmt i a } := by
  have hre : removeEntry (tempP ++ [.jsonName i]) w.fs.files = w.fs.files :=
    removeEntry_eq_self _ _ hjson
  cases a
  · simp [processItem, itemFiles, itemNames, itemLogs]
  · cases hf : fetchOk i
    · simp [processItem, hf, itemFiles, itemNames, itemLogs]
    · rcases hco : co i with ⟨cg, cp, cw, cl⟩
      cases fmt <;> cases cg <;> cases cp <;> cases cw <;> cases cl <;>
        simp [processItem, hf, hco, convertFmt, convOne, convLottie, FS.write,
          FS.removeFile, itemFiles, itemNames, outNames, itemLogs, convOkFor, contOf,
          removeEntry_append, hre, removeEntry, List.append_cancel_left_eq,
          List.append_assoc]

theorem setLoop_spec (co : ℕ → ConvOk) (fetchOk : ℕ → Bool) (fmt : Fmt) (tempP : FPath) :
    ∀ (stickers : List Bool) (i : ℕ) (w : World),
      (∀ e ∈ w.fs.files, ∀ j, e.1 ≠ tempP ++ [.jsonName j]) →
      setLoop co fetchOk fmt tempP i stickers w =
        { w with
          fs := ⟨w.fs.dirs, w.fs.files ++ loopFiles co fetchOk fmt tempP i stickers⟩
          logs := w.logs ++ loopLogs co fetchOk fmt i stickers } := by
  intro stickers
  induction stickers with
  | nil =>
    intro i w h
    simp [setLoop, loopFiles, loopNames, loopLogs]
  | cons a rest ih =>
    intro i w h
    rw [setLoop, processItem_spec co fetchOk fmt tempP i a w (fun e he => h e he i)]
    rw [ih (i + 1) _ ?_]
    · simp [itemFiles, loopFiles, loopNames, loopLogs, List.map_append, List.append_assoc]
    · intro e he j
      rcases List.mem_append.mp he with h1 | h1
      · exact h e h1 j
      · rcases List.mem_map.mp h1 with ⟨n, hn, rfl⟩
        have hk := (itemNames_facts co fetchOk fmt i a n hn).2.2.2
        simp only [ne_eq, List.append_cancel_left_eq, List.cons.injEq, and_true]
        intro hcontra
        rw [hcontra] at hk
        exact hk rfl

/-! ### Placement-phase characterization -/

theorem foldl_moveTo_spec (dest : FPath) :
    ∀ (b others : List (FPath × Content)) (dirs : List FPath),
      (b.map Prod.fst).Nodup →
      (∀ e ∈ b, e.1 ∉ others.map Prod.fst) →
      (∀ e ∈ b, e.1.length ≠ dest.length + 1) →
      b.foldl (moveTo dest) ⟨dirs, b ++ others⟩ =
        ⟨dirs, others ++ b.map (fun e => (dest ++ [basename e.1], e.2))⟩ := by
  intro b
  induction b with
  | nil => intro others dirs _ _ _; simp
  | cons e b' ih =>
    intro others dirs hnd hout hlen
    have hnd' : (b'.map Prod.fst).Nodup := (List.nodup_cons.mp (by simpa using hnd)).2
    have hhead : e.1 ∉ b'.map Prod.fst := (List.nodup_cons.mp (by simpa using hnd)).1
    have h1 : removeEntry e.1 ((e :: b') ++ others) = b' ++ others := by
      rw [List.cons_append, removeEntry_cons_of_eq _ _ _ rfl, removeEntry_append,
        removeEntry_eq_self _ _ (fun x hx hc => hhead (by
          rw [← hc]; exact List.mem_map.mpr ⟨x, hx, rfl⟩)),
        removeEntry_eq_self _ _ (fun x hx hc => hout e (List.mem_cons_self _ _) (by
          rw [← hc]; exact List.mem_map.mpr ⟨x, hx, rfl⟩))]
    have hstep : moveTo dest ⟨dirs, (e :: b') ++ others⟩ e =
        ⟨dirs, b' ++ (others ++ [(dest ++ [basename e.1], e.2)])⟩ := by
      simp only [moveTo, FS.removeFile, FS.write, List.append_eq]
      rw [h1, List.append_assoc]
    rw [List.foldl_cons, hstep,
      ih (others ++ [(dest ++ [basename e.1], e.2)]) dirs hnd' ?_ ?_]
    · rw [List.append_assoc, List.singleton_append, List.map_cons]
    · intro x hx
      simp only [List.map_append, List.mem_append, List.map_cons, List.mem_singleton,
        List.map_nil]
      rintro (hmem | hmem)
      · exact hout x (List.mem_cons_of_mem _ hx) hmem
      · have := hlen x (List.mem_cons_of_mem _ hx)
        rw [hmem] at this
        simp at this
    · exact fun x hx => hlen x (List.mem_cons_of_mem _ hx)

theorem placeBins_spec (dest : FPath) :
    ∀ (bins : List (List (FPath × Content))) (k : ℕ) (dirs : List FPath)
      (done : List (FPath × Content)),
      (bins.flatten.map Prod.fst).Nodup →
      (∀ e ∈ bins.flatten, e.1 ∉ done.map Prod.fst) →
      (∀ e ∈ bins.flatten, e.1.length ≠ dest.length + 2) →
      placeBins dest k bins ⟨dirs, bins.flatten ++ done⟩ =
        ⟨dirs ++ binDirsFrom dest k bins.length, done ++ placedFiles dest k bins⟩ := by
  intro bins
  induction bins with
  | nil => intro k dirs done _ _ _; simp [placeBins, binDirsFrom, placedFiles]
  | cons b rest ih =>
    intro k dirs done hnd hdone hlen
    have hbmem : ∀ e ∈ b, e ∈ (b :: rest).flatten := by
      intro e he
      rw [List.flatten_cons]
      exact List.mem_append.mpr (Or.inl he)
    have hrmem : ∀ e ∈ rest.flatten, e ∈ (b :: rest).flatten := by
      intro e he
      rw [List.flatten_cons]
      exact List.mem_append.mpr (Or.inr he)
    have hnd2 : ((b ++ rest.flatten).map Prod.fst).Nodup := by
      rw [← List.flatten_cons]
      exact hnd
    rw [List.map_append] at hnd2
    have hndb : (b.map Prod.fst).Nodup := hnd2.of_append_left
    have hndr : (rest.flatten.map Prod.fst).Nodup := hnd2.of_append_right
    have hdisj : ∀ e ∈ b, e.1 ∉ rest.flatten.map Prod.fst := by
      intro e he hc
      exact (List.disjoint_of_nodup_append hnd2) (List.mem_map.mpr ⟨e, he, rfl⟩) hc
    have hblen : (dest ++ [FName.binDir k]).length = dest.length + 1 := by simp
    show placeBins dest k (b :: rest) _ = _
    rw [placeBins]
    have hfold := foldl_moveTo_spec (dest ++ [.binDir k]) b (rest.flatten ++ done)
      (dirs ++ [dest ++ [.binDir k]]) hndb ?_ ?_
    · have hfs1 : (FS.mkdir ⟨dirs, (b :: rest).flatten ++ done⟩ (dest ++ [.binDir k])) =
          ⟨dirs ++ [dest ++ [.binDir k]], b ++ (rest.flatten ++ done)⟩ := by
        simp [FS.mkdir, List.append_assoc]
      rw [hfs1, hfold]
      have hfs2 : (⟨dirs ++ [dest ++ [.binDir k]],
          (rest.flatten ++ done) ++ b.map (fun e => ((dest ++ [.binDir k]) ++ [basename e.1], e.2))⟩ : FS) =
          ⟨dirs ++ [dest ++ [.binDir k]],
            rest.flatten ++ (done ++ b.map (fun e => ((dest ++ [.binDir k]) ++ [basename e.1], e.2)))⟩ := by
        simp [List.append_assoc]
      rw [hfs2, ih (k + 1) _ _ hndr ?_ ?_]
      · simp [binDirsFrom, placedFiles, List.append_assoc]
      · intro e he
        simp only [List.map_append, List.mem_append, not_or]
        refine ⟨fun hc => hdone e (hrmem e he) hc, ?_⟩
        intro hc
        rcases List.mem_map.mp hc with ⟨x, hx, hcx⟩
        rcases List.mem_map.mp hx with ⟨y, hy, rfl⟩
        have := hlen e (hrmem e he)
        rw [← hcx] at this
        simp at this
      · exact fun e he => hlen e (hrmem e he)
    · intro e he
      simp only [List.map_append, List.mem_append, not_or]
      exact ⟨fun hc => hdisj e he hc, fun hc => hdone e (hbmem e he) hc⟩
    · intro e he
      rw [hblen]
      exact hlen e (hbmem e he)

theorem placedFiles_shape (dest : FPath) :
    ∀ (bins : List (List (FPath × Content))) (k : ℕ),
      ∀ e ∈ placedFiles dest k bins,
        ∃ j n, k ≤ j ∧ j < k + bins.length ∧ e.1 = dest ++ [FName.binDir j] ++ [n] := by
  intro bins
  induction bins with
  | nil => intro k e he; cases he
  | cons b rest ih =>
    intro k e he
    rw [placedFiles] at he
    rcases List.mem_append.mp he with h | h
    · rcases List.mem_map.mp h with ⟨x, _, rfl⟩
      exact ⟨k, basename x.1, le_refl k, by simp only [List.length_cons]; omega, rfl⟩
    · rcases ih (k + 1) e h with ⟨j, n, hj, hlt, he⟩
      exact ⟨j, n, by omega, by simp only [List.length_cons] at hlt ⊢; omega, he⟩

theorem placedFiles_append (dest : FPath) :
    ∀ (l₁ l₂ : List (List (FPath × Content))) (k : ℕ),
      placedFiles dest k (l₁ ++ l₂) =
        placedFiles dest k l₁ ++ placedFiles dest (k + l₁.length) l₂ := by
  intro l₁
  induction l₁ with
  | nil => intro l₂ k; simp [placedFiles]
  | cons b rest ih =>
    intro l₂ k
    simp only [List.cons_append, placedFiles, List.append_eq, ih, List.length_cons,
      List.append_assoc, show k + 1 + rest.length = k + (rest.length + 1) from by omega]

theorem childFiles_placed_ne (dest : FPath) :
    ∀ (bins : List (List (FPath × Content))) (k j : ℕ),
      (j < k ∨ k + bins.length ≤ j) →
      childFiles (dest ++ [FName.binDir j]) (placedFiles dest k bins) = [] := by
  intro bins k j hj
  refine childFiles_eq_nil _ _ ?_
  intro e he hc
  rcases placedFiles_shape dest bins k e he with ⟨j', n, hj', hlt, hp⟩
  rcases hc with ⟨hdrop, _⟩
  rw [hp, List.dropLast_concat] at hdrop
  have hj'' : j' = j := by
    rw [List.append_cancel_left_eq] at hdrop
    simpa using hdrop
  omega

theorem childFiles_placed_head (dest : FPath) (b : List (FPath × Content)) (k : ℕ) :
    childFiles (dest ++ [FName.binDir k])
        (b.map (fun e => (dest ++ [FName.binDir k] ++ [basename e.1], e.2))) =
      b.map (fun e => (dest ++ [FName.binDir k] ++ [basename e.1], e.2)) := by
  refine childFiles_eq_self _ _ ?_
  intro e he
  rcases List.mem_map.mp he with ⟨x, _, rfl⟩
  exact childOf_append _ _

/-! ### Delivery-loop characterization -/

theorem childFiles_subset (d : FPath) :
    ∀ (l : List (FPath × Content)), ∀ e ∈ childFiles d l, e ∈ l := by
  intro l
  induction l with
  | nil => intro e he; cases he
  | cons x rest ih =>
    intro e he
    rw [childFiles] at he
    by_cases h : childOf d x.1
    · rw [if_pos h] at he
      rcases List.mem_cons.mp he with rfl | hmem
      · exact List.mem_cons_self _ _
      · exact List.mem_cons_of_mem _ (ih e hmem)
    · rw [if_neg h] at he
      exact List.mem_cons_of_mem _ (ih e he)

theorem zipEntries_of_mem (fs : FS) :
    ∀ (es : List (FPath × Content)),
      (∀ e ∈ es, e ∈ fs.files) →
      (fs.files.map Prod.fst).Nodup →
      zipEntries fs (es.map Prod.fst) = some (es.map (fun e => (basename e.1, e.2))) := by
  intro es
  induction es with
  | nil => intro _ _; rfl
  | cons e rest ih =>
    intro hmem hnd
    have h1 : fs.lookup e.1 = some e.2 := by
      unfold FS.lookup
      exact lookupIn_of_mem_nodup e.1 e.2 fs.files (hmem e (List.mem_cons_self _ _)) hnd
    have h2 := ih (fun x hx => hmem x (List.mem_cons_of_mem _ hx)) hnd
    rw [List.map_cons, zipEntries, h1, h2]
    simp

theorem zipLoop_spec (dirP : FPath) :
    ∀ (ds : List FPath) (w : World),
      (w.fs.files.map Prod.fst).Nodup →
      (∀ d ∈ ds, ∀ e ∈ w.fs.files, e.1 ≠ dirP ++ [.zipBin (binIdx (basename d))]) →
      zipLoop dirP ds w =
        ({ w with sent := w.sent ++ ds.map (fun d =>
            Msg.document (.zipBin (binIdx (basename d)))
              (.zipC ((childFiles d w.fs.files).map (fun e => (basename e.1, e.2))))) }, none) := by
  intro ds
  induction ds with
  | nil => intro w _ _; simp [zipLoop]
  | cons d rest ih =>
    intro w hnd hz
    have hbz : zipEntries w.fs ((childFiles d w.fs.files).map Prod.fst) =
        some ((childFiles d w.fs.files).map (fun e => (basename e.1, e.2))) :=
      zipEntries_of_mem w.fs _ (fun e he => childFiles_subset d _ e he) hnd
    have hlook : lookupIn (dirP ++ [.zipBin (binIdx (basename d))])
          (w.fs.files ++ [(dirP ++ [.zipBin (binIdx (basename d))],
            Content.zipC ((childFiles d w.fs.files).map (fun e => (basename e.1, e.2))))]) =
        some (.zipC ((childFiles d w.fs.files).map (fun e => (basename e.1, e.2)))) := by
      rw [lookupIn_append_right _ _ _ (fun e he => hz d (List.mem_cons_self _ _) e he),
        lookupIn, if_pos rfl]
    have hrem : removeEntry (dirP ++ [.zipBin (binIdx (basename d))])
          (w.fs.files ++ [(dirP ++ [.zipBin (binIdx (basename d))],
            Content.zipC ((childFiles d w.fs.files).map (fun e => (basename e.1, e.2))))]) =
        w.fs.files := by
      rw [removeEntry_append,
        removeEntry_eq_self _ _ (fun e he => hz d (List.mem_cons_self _ _) e he)]
      simp [removeEntry]
    have hih := ih ({ w with sent := w.sent ++
        [Msg.document (.zipBin (binIdx (basename d)))
          (.zipC ((childFiles d w.fs.files).map (fun e => (basename e.1, e.2))))] })
      hnd (fun d' hd' e he => hz d' (List.mem_cons_of_mem _ hd') e he)
    simp only [zipLoop, FS.listFiles, buildZip, hbz, send_zip_file, send_document,
      FS.lookup, FS.write, hlook, FS.removeFile, hrem, basename_append]
    refine hih.trans ?_
    simp [List.append_assoc]

/-! ### Assembling the whole-collection pipeline -/

theorem loopFiles_paths_nodup (co : ℕ → ConvOk) (fetchOk : ℕ → Bool) (fmt : Fmt)
    (tempP : FPath) (i : ℕ) (st : List Bool) :
    ((loopFiles co fetchOk fmt tempP i st).map Prod.fst).Nodup := by
  unfold loopFiles
  rw [List.map_map]
  refine List.Nodup.map ?_ (loopNames_nodup co fetchOk fmt st i)
  intro a b hab
  simpa using hab

theorem loopFiles_shape (co : ℕ → ConvOk) (fetchOk : ℕ → Bool) (fmt : Fmt)
    (tempP : FPath) (i : ℕ) (st : List Bool) :
    ∀ e ∈ loopFiles co fetchOk fmt tempP i st, ∃ n ∈ loopNames co fetchOk fmt i st,
      e = (tempP ++ [n], contOf n) := by
  intro e he
  rcases List.mem_map.mp he with ⟨n, hn, rfl⟩
  exact ⟨n, hn, rfl⟩

theorem bin_paths_nodup :
    ∀ (bins : List (List (FPath × Content))),
      (bins.flatten.map Prod.fst).Nodup → ∀ b ∈ bins, (b.map Prod.fst).Nodup := by
  intro bins
  induction bins with
  | nil => intro _ b hb; cases hb
  | cons c rest ih =>
    intro hnd b hb
    rw [List.flatten_cons, List.map_append] at hnd
    rcases List.mem_cons.mp hb with rfl | hb
    · exact hnd.of_append_left
    · exact ih hnd.of_append_right b hb

theorem basenames_nodup_of_children (tempP : FPath) (b : List (FPath × Content))
    (hshape : ∀ e ∈ b, ∃ n, e.1 = tempP ++ [n]) (hnd : (b.map Prod.fst).Nodup) :
    (b.map (fun e => basename e.1)).Nodup := by
  have hrw : b.map (fun e => basename e.1) = (b.map Prod.fst).map basename := by
    rw [List.map_map]
    rfl
  rw [hrw]
  refine List.Nodup.map_on ?_ hnd
  intro x hx y hy hxy
  rcases List.mem_map.mp hx with ⟨ex, hex, rfl⟩
  rcases List.mem_map.mp hy with ⟨ey, hey, rfl⟩
  rcases hshape ex hex with ⟨nx, hnx⟩
  rcases hshape ey hey with ⟨ny, hny⟩
  rw [hnx, hny, basename_append, basename_append] at hxy
  rw [hnx, hny, hxy]

theorem binDirsFrom_shape (dest : FPath) :
    ∀ (n k : ℕ), ∀ d ∈ binDirsFrom dest k n, ∃ j, k ≤ j ∧ j < k + n ∧ d = dest ++ [.binDir j] := by
  intro n
  induction n with
  | zero => intro k d hd; cases hd
  | succ m ih =>
    intro k d hd
    rw [binDirsFrom] at hd
    rcases List.mem_cons.mp hd with rfl | hd
    · exact ⟨k, le_refl k, by omega, rfl⟩
    · rcases ih (k + 1) d hd with ⟨j, hj1, hj2, hj3⟩
      exact ⟨j, by omega, by omega, hj3⟩

theorem childDirs_eq_self (d : FPath) (l : List FPath)
    (h : ∀ x ∈ l, childOf d x) : childDirs d l = l := by
  induction l with
  | nil => rfl
  | cons x rest ih =>
    rw [childDirs, if_pos (h x (List.mem_cons_self _ _)),
      ih (fun y hy => h y (List.mem_cons_of_mem _ hy))]

theorem childDirs_eq_nil (d : FPath) (l : List FPath)
    (h : ∀ x ∈ l, ¬ childOf d x) : childDirs d l = [] := by
  induction l with
  | nil => rfl
  | cons x rest ih =>
    rw [childDirs, if_neg (h x (List.mem_cons_self _ _)),
      ih (fun y hy => h y (List.mem_cons_of_mem _ hy))]

theorem placedFiles_nodup (dest : FPath) :
    ∀ (bins : List (List (FPath × Content))) (k : ℕ),
      (∀ b ∈ bins, (b.map (fun e => basename e.1)).Nodup) →
      ((placedFiles dest k bins).map Prod.fst).Nodup := by
  intro bins
  induction bins with
  | nil => intro k _; exact List.nodup_nil
  | cons b rest ih =>
    intro k hb
    rw [placedFiles, List.map_append]
    refine List.Nodup.append ?_ (ih (k + 1) (fun c hc => hb c (List.mem_cons_of_mem _ hc))) ?_
    · rw [List.map_map]
      have hrw : (Prod.fst ∘ fun e : FPath × Content =>
          (dest ++ [FName.binDir k] ++ [basename e.1], e.2)) =
          (fun n => dest ++ [FName.binDir k] ++ [n]) ∘ (fun e => basename e.1) := rfl
      rw [hrw, ← List.map_map]
      refine List.Nodup.map ?_ (hb b (List.mem_cons_self _ _))
      intro a c hac
      simpa using hac
    · intro p hp1 hp2
      rcases List.mem_map.mp hp1 with ⟨x, hx, hfx⟩
      rcases List.mem_map.mp hx with ⟨y, _, rfl⟩
      rcases List.mem_map.mp hp2 with ⟨e, he, hfe⟩
      rcases placedFiles_shape dest rest (k + 1) e he with ⟨j, n, hj, _, hej⟩
      have h2 : dest ++ [FName.binDir j] ++ [n] =
          dest ++ [FName.binDir k] ++ [basename y.1] := by
        rw [← hej, hfe, ← hfx]
      rw [List.append_assoc, List.append_assoc, List.append_cancel_left_eq] at h2
      have h3 : j = k := by
        have := (List.cons.injEq _ _ _ _ ▸ h2)
        simp at h2
        exact h2.1
      omega

theorem basename_append_two (d : FPath) (m n : FName) : basename (d ++ [m, n]) = n := by
  have h : d ++ [m, n] = (d ++ [m]) ++ [n] := by simp
  rw [h, basename_append]

theorem binDirs_map_msgs (dest : FPath) :
    ∀ (bins pre : List (List (FPath × Content))),
      (binDirsFrom dest pre.length bins.length).map (fun d =>
        Msg.document (.zipBin (binIdx (basename d)))
          (.zipC ((childFiles d (placedFiles dest 0 (pre ++ bins))).map
            (fun e => (basename e.1, e.2))))) =
      binMsgs pre.length bins := by
  intro bins
  induction bins with
  | nil => intro pre; rfl
  | cons b rest ih =>
    intro pre
    rw [List.length_cons, binDirsFrom, List.map_cons]
    have hsplit : placedFiles dest 0 (pre ++ b :: rest) =
        placedFiles dest 0 pre ++
          (b.map (fun e => (dest ++ [FName.binDir pre.length] ++ [basename e.1], e.2)) ++
            placedFiles dest (pre.length + 1) rest) := by
      rw [placedFiles_append]
      simp [placedFiles]
    have hhead : childFiles (dest ++ [FName.binDir pre.length])
        (placedFiles dest 0 (pre ++ b :: rest)) =
        b.map (fun e => (dest ++ [FName.binDir pre.length] ++ [basename e.1], e.2)) := by
      rw [hsplit, childFiles_append, childFiles_append,
        childFiles_placed_ne dest pre 0 pre.length (Or.inr (by omega)),
        childFiles_placed_head dest b pre.length,
        childFiles_placed_ne dest rest (pre.length + 1) pre.length (Or.inl (by omega))]
      simp
    have htail := ih (pre ++ [b])
    rw [List.append_assoc, List.singleton_append] at htail
    have hlen : (pre ++ [b]).length = pre.length + 1 := by simp
    rw [hlen] at htail
    rw [hhead, htail, binMsgs]
    congr 1
    simp [binIdx, basename_append, basename_append_two, List.map_map]

/-- Full run of the whole-collection pipeline from a fresh process state:
the per-item loop fills `temp`, the splitter bins the files greedily, one
archive per bin is delivered, and `temp` and `split` are removed while the
(empty) workspace directory remains. -/
theorem set_pipeline_run (sz : Content → ℚ) (co : ℕ → ConvOk) (fetchOk : ℕ → Bool)
    (fmt : Fmt) (suffix : ℕ) (stickers : List Bool) :
    download_and_send_sticker_set sz co fetchOk fmt suffix stickers World.init =
      ({ fs := ⟨[[.outRoot], jobPath suffix], []⟩,
         sent := binMsgs 0 (greedySplit (fun e => sz e.2) 49
           (loopFiles co fetchOk fmt (jobPath suffix ++ [.tempDir]) 1 stickers)),
         logs := loopLogs co fetchOk fmt 1 stickers }, none) := by
  have hne : ¬ World.init.fs.hasDir (jobPath suffix) := by
    simp [World.init, FS.hasDir, jobPath]
  have hLshape : ∀ e ∈ loopFiles co fetchOk fmt (jobPath suffix ++ [.tempDir]) 1 stickers,
      ∃ n, e.1 = (jobPath suffix ++ [.tempDir]) ++ [n] := by
    intro e he
    rcases loopFiles_shape co fetchOk fmt _ 1 stickers e he with ⟨n, _, rfl⟩
    exact ⟨n, rfl⟩
  have hLnd := loopFiles_paths_nodup co fetchOk fmt (jobPath suffix ++ [.tempDir]) 1 stickers
  simp only [download_and_send_sticker_set]
  rw [if_neg hne]
  rw [setLoop_spec co fetchOk fmt (jobPath suffix ++ [FName.tempDir]) stickers 1 _
    (by intro e he j; simp [World.init, FS.mkdir] at he)]
  simp only [World.init, FS.mkdir, List.cons_append, List.nil_append, List.append_nil]
  have hchild : childFiles (jobPath suffix ++ [FName.tempDir])
      (loopFiles co fetchOk fmt (jobPath suffix ++ [FName.tempDir]) 1 stickers) =
      loopFiles co fetchOk fmt (jobPath suffix ++ [FName.tempDir]) 1 stickers := by
    refine childFiles_eq_self _ _ ?_
    intro e he
    rcases hLshape e he with ⟨n, hn⟩
    rw [hn]
    exact childOf_append _ _
  have hplace := placeBins_spec (jobPath suffix ++ [FName.splitDir])
      (greedySplit (fun e => sz e.2) 49
        (loopFiles co fetchOk fmt (jobPath suffix ++ [FName.tempDir]) 1 stickers)) 0
      [[FName.outRoot], jobPath suffix, jobPath suffix ++ [FName.tempDir],
        jobPath suffix ++ [FName.splitDir]] []
      (by rw [greedySplit_flatten]; exact hLnd)
      (by intro e he; simp)
      (by intro e he
          rw [greedySplit_flatten] at he
          rcases hLshape e he with ⟨n, hn⟩
          rw [hn]
          simp [jobPath])
  rw [List.append_nil, List.nil_append, greedySplit_flatten] at hplace
  have hsplitfs : split_files_into_directories sz
      ⟨[[FName.outRoot], jobPath suffix, jobPath suffix ++ [FName.tempDir]],
        loopFiles co fetchOk fmt (jobPath suffix ++ [FName.tempDir]) 1 stickers⟩
      (jobPath suffix ++ [FName.tempDir]) (jobPath suffix ++ [FName.splitDir]) 49 =
      ⟨[[FName.outRoot], jobPath suffix, jobPath suffix ++ [FName.tempDir],
          jobPath suffix ++ [FName.splitDir]] ++
          binDirsFrom (jobPath suffix ++ [FName.splitDir]) 0
            (greedySplit (fun e => sz e.2) 49
              (loopFiles co fetchOk fmt (jobPath suffix ++ [FName.tempDir]) 1 stickers)).length,
        placedFiles (jobPath suffix ++ [FName.splitDir]) 0
          (greedySplit (fun e => sz e.2) 49
            (loopFiles co fetchOk fmt (jobPath suffix ++ [FName.tempDir]) 1 stickers))⟩ := by
    simp only [split_files_into_directories, splitBins, FS.listFiles]
    rw [if_neg (by simp [FS.hasDir, jobPath])]
    simp only [FS.mkdir, List.cons_append, List.nil_append]
    rw [hchild]
    exact hplace
  rw [hsplitfs]
  have hld : FS.listDirs
      ⟨[[FName.outRoot], jobPath suffix, jobPath suffix ++ [FName.tempDir],
          jobPath suffix ++ [FName.splitDir]] ++
          binDirsFrom (jobPath suffix ++ [FName.splitDir]) 0
            (greedySplit (fun e => sz e.2) 49
              (loopFiles co fetchOk fmt (jobPath suffix ++ [FName.tempDir]) 1 stickers)).length,
        placedFiles (jobPath suffix ++ [FName.splitDir]) 0
          (greedySplit (fun e => sz e.2) 49
            (loopFiles co fetchOk fmt (jobPath suffix ++ [FName.tempDir]) 1 stickers))⟩
      (jobPath suffix ++ [FName.splitDir]) =
      binDirsFrom (jobPath suffix ++ [FName.splitDir]) 0
        (greedySplit (fun e => sz e.2) 49
          (loopFiles co fetchOk fmt (jobPath suffix ++ [FName.tempDir]) 1 stickers)).length := by
    show childDirs _ _ = _
    rw [childDirs_append, childDirs_eq_nil _ _ ?_, childDirs_eq_self _ _ ?_, List.nil_append]
    · intro x hx
      rcases binDirsFrom_shape _ _ _ x hx with ⟨j, _, _, rfl⟩
      exact childOf_append _ _
    · intro x hx
      simp only [List.mem_cons, List.not_mem_nil, or_false] at hx
      rcases hx with rfl | rfl | rfl | rfl <;> simp [childOf, jobPath]
  rw [hld]
  have hbinnd : ∀ b ∈ greedySplit (fun e => sz e.2) 49
      (loopFiles co fetchOk fmt (jobPath suffix ++ [FName.tempDir]) 1 stickers),
      (b.map (fun e => basename e.1)).Nodup := by
    intro b hb
    refine basenames_nodup_of_children (jobPath suffix ++ [FName.tempDir]) b ?_ ?_
    · intro e he
      refine hLshape e ?_
      rw [← greedySplit_flatten (fun e => sz e.2) 49
        (loopFiles co fetchOk fmt (jobPath suffix ++ [FName.tempDir]) 1 stickers)]
      exact List.mem_flatten.mpr ⟨b, hb, he⟩
    · refine bin_paths_nodup _ ?_ b hb
      rw [greedySplit_flatten]
      exact hLnd
  have hznd : ((placedFiles (jobPath suffix ++ [FName.splitDir]) 0
      (greedySplit (fun e => sz e.2) 49
        (loopFiles co fetchOk fmt (jobPath suffix ++ [FName.tempDir]) 1 stickers))).map
        Prod.fst).Nodup :=
    placedFiles_nodup _ _ _ hbinnd
  have hz : ∀ d ∈ binDirsFrom (jobPath suffix ++ [FName.splitDir]) 0
      (greedySplit (fun e => sz e.2) 49
        (loopFiles co fetchOk fmt (jobPath suffix ++ [FName.tempDir]) 1 stickers)).length,
      ∀ e ∈ placedFiles (jobPath suffix ++ [FName.splitDir]) 0
        (greedySplit (fun e => sz e.2) 49
          (loopFiles co fetchOk fmt (jobPath suffix ++ [FName.tempDir]) 1 stickers)),
      e.1 ≠ jobPath suffix ++ [FName.zipBin (binIdx (basename d))] := by
    intro d hd e he hc
    rcases placedFiles_shape _ _ _ e he with ⟨j, n, _, _, hej⟩
    rw [hej] at hc
    have hlen := congrArg List.length hc
    simp [jobPath] at hlen
  have hzl := zipLoop_spec (jobPath suffix)
    (binDirsFrom (jobPath suffix ++ [FName.splitDir]) 0
      (greedySplit (fun e => sz e.2) 49
        (loopFiles co fetchOk fmt (jobPath suffix ++ [FName.tempDir]) 1 stickers)).length)
    ⟨⟨[[FName.outRoot], jobPath suffix, jobPath suffix ++ [FName.tempDir],
        jobPath suffix ++ [FName.splitDir]] ++
        binDirsFrom (jobPath suffix ++ [FName.splitDir]) 0
          (greedySplit (fun e => sz e.2) 49
            (loopFiles co fetchOk fmt (jobPath suffix ++ [FName.tempDir]) 1 stickers)).length,
      placedFiles (jobPath suffix ++ [FName.splitDir]) 0
        (greedySplit (fun e => sz e.2) 49
          (loopFiles co fetchOk fmt (jobPath suffix ++ [FName.tempDir]) 1 stickers))⟩,
      [], loopLogs co fetchOk fmt 1 stickers⟩ hznd hz
  rw [hzl]
  simp only [List.nil_append]
  have hrm1 : FS.rmtree
      ⟨[[FName.outRoot], jobPath suffix, jobPath suffix ++ [FName.tempDir],
          jobPath suffix ++ [FName.splitDir]] ++
          binDirsFrom (jobPath suffix ++ [FName.splitDir]) 0
            (greedySplit (fun e => sz e.2) 49
              (loopFiles co fetchOk fmt (jobPath suffix ++ [FName.tempDir]) 1 stickers)).length,
        placedFiles (jobPath suffix ++ [FName.splitDir]) 0
          (greedySplit (fun e => sz e.2) 49
            (loopFiles co fetchOk fmt (jobPath suffix ++ [FName.tempDir]) 1 stickers))⟩
      (jobPath suffix ++ [FName.tempDir]) =
      ⟨[[FName.outRoot], jobPath suffix, jobPath suffix ++ [FName.splitDir]] ++
          binDirsFrom (jobPath suffix ++ [FName.splitDir]) 0
            (greedySplit (fun e => sz e.2) 49
              (loopFiles co fetchOk fmt (jobPath suffix ++ [FName.tempDir]) 1 stickers)).length,
        placedFiles (jobPath suffix ++ [FName.splitDir]) 0
          (greedySplit (fun e => sz e.2) 49
            (loopFiles co fetchOk fmt (jobPath suffix ++ [FName.tempDir]) 1 stickers))⟩ := by
    have hself : pruneDirs (jobPath suffix ++ [FName.tempDir])
        (binDirsFrom (jobPath suffix ++ [FName.splitDir]) 0
          (greedySplit (fun e => sz e.2) 49
            (loopFiles co fetchOk fmt (jobPath suffix ++ [FName.tempDir]) 1 stickers)).length) =
        binDirsFrom (jobPath suffix ++ [FName.splitDir]) 0
          (greedySplit (fun e => sz e.2) 49
            (loopFiles co fetchOk fmt (jobPath suffix ++ [FName.tempDir]) 1 stickers)).length := by
      refine pruneDirs_eq_self _ _ ?_
      intro x hx
      rcases binDirsFrom_shape _ _ _ x hx with ⟨j, _, _, rfl⟩
      simp [jobPath, List.cons_prefix_cons]
    have hfself : pruneFiles (jobPath suffix ++ [FName.tempDir])
        (placedFiles (jobPath suffix ++ [FName.splitDir]) 0
          (greedySplit (fun e => sz e.2) 49
            (loopFiles co fetchOk fmt (jobPath suffix ++ [FName.tempDir]) 1 stickers))) =
        placedFiles (jobPath suffix ++ [FName.splitDir]) 0
          (greedySplit (fun e => sz e.2) 49
            (loopFiles co fetchOk fmt (jobPath suffix ++ [FName.tempDir]) 1 stickers)) := by
      refine pruneFiles_eq_self _ _ ?_
      intro e he
      rcases placedFiles_shape _ _ _ e he with ⟨j, n, _, _, hej⟩
      rw [hej]
      simp [jobPath, List.cons_prefix_cons]
    simp only [FS.rmtree, pruneDirs_append, hself, hfself]
    simp [pruneDirs, jobPath, List.cons_prefix_cons, List.prefix_nil]
  rw [hrm1]
  have hrm2 : FS.rmtree
      ⟨[[FName.outRoot], jobPath suffix, jobPath suffix ++ [FName.splitDir]] ++
          binDirsFrom (jobPath suffix ++ [FName.splitDir]) 0
            (greedySplit (fun e => sz e.2) 49
              (loopFiles co fetchOk fmt (jobPath suffix ++ [FName.tempDir]) 1 stickers)).length,
        placedFiles (jobPath suffix ++ [FName.splitDir]) 0
          (greedySplit (fun e => sz e.2) 49
            (loopFiles co fetchOk fmt (jobPath suffix ++ [FName.tempDir]) 1 stickers))⟩
      (jobPath suffix ++ [FName.splitDir]) =
      ⟨[[FName.outRoot], jobPath suffix], []⟩ := by
    have hnil : pruneDirs (jobPath suffix ++ [FName.splitDir])
        (binDirsFrom (jobPath suffix ++ [FName.splitDir]) 0
          (greedySplit (fun e => sz e.2) 49
            (loopFiles co fetchOk fmt (jobPath suffix ++ [FName.tempDir]) 1 stickers)).length) = [] := by
      refine pruneDirs_eq_nil _ _ ?_
      intro x hx
      rcases binDirsFrom_shape _ _ _ x hx with ⟨j, _, _, rfl⟩
      exact List.prefix_append _ _
    have hfnil : pruneFiles (jobPath suffix ++ [FName.splitDir])
        (placedFiles (jobPath suffix ++ [FName.splitDir]) 0
          (greedySplit (fun e => sz e.2) 49
            (loopFiles co fetchOk fmt (jobPath suffix ++ [FName.tempDir]) 1 stickers))) = [] := by
      refine pruneFiles_eq_nil _ _ ?_
      intro e he
      rcases placedFiles_shape _ _ _ e he with ⟨j, n, _, _, hej⟩
      rw [hej, List.append_assoc]
      exact List.prefix_append _ _
    simp only [FS.rmtree, pruneDirs_append, hnil, hfnil]
    simp [pruneDirs, jobPath, List.cons_prefix_cons, List.prefix_nil]
  rw [hrm2]
  have hmsgs := binDirs_map_msgs (jobPath suffix ++ [FName.splitDir])
    (greedySplit (fun e => sz e.2) 49
      (loopFiles co fetchOk fmt (jobPath suffix ++ [FName.tempDir]) 1 stickers)) []
  simp only [List.length_nil, List.nil_append] at hmsgs
  rw [hmsgs]

/-! ### Delivered-entry bookkeeping -/

theorem binMsgs_entries :
    ∀ (bins : List (List (FPath × Content))) (k : ℕ),
      ((binMsgs k bins).filterMap (fun m =>
        match m with
        | Msg.document _ (.zipC es) => some es
        | _ => none)).flatten =
      bins.flatten.map (fun e => (basename e.1, e.2)) := by
  intro bins
  induction bins with
  | nil => intro k; rfl
  | cons b rest ih =>
    intro k
    simp only [binMsgs, List.filterMap_cons, List.flatten_cons, List.map_append, ih]

theorem deliveredEntries_of_binMsgs (fs : FS) (logs : List LogEvent)
    (bins : List (List (FPath × Content))) (k : ℕ) :
    deliveredEntries ⟨fs, binMsgs k bins, logs⟩ =
      bins.flatten.map (fun e => (basename e.1, e.2)) := by
  unfold deliveredEntries
  exact binMsgs_entries bins k

theorem loopLogs_replicate_ok (co : ℕ → ConvOk) (fetchOk : ℕ → Bool) (fmt : Fmt) :
    ∀ (n i : ℕ), (∀ j, i ≤ j → j < i + n → fetchOk j = true ∧ convOkFor (co j) fmt = true) →
      loopLogs co fetchOk fmt i (List.replicate n true) = [] := by
  intro n
  induction n with
  | zero => intro i _; rfl
  | succ m ih =>
    intro i h
    rw [List.replicate_succ, loopLogs, itemLogs]
    have hi := h i (le_refl i) (by omega)
    rw [if_pos rfl, hi.1, hi.2]
    simp only [Bool.and_self, if_true, List.nil_append]
    exact ih (i + 1) (fun j hj1 hj2 => h j (by omega) (by omega))

theorem loopLogs_replicate_one_fail (co : ℕ → ConvOk) (fetchOk : ℕ → Bool) (fmt : Fmt) :
    ∀ (n i f : ℕ), i ≤ f → f < i + n →
      ¬ (fetchOk f = true ∧ convOkFor (co f) fmt = true) →
      (∀ j, i ≤ j → j < i + n → j ≠ f → fetchOk j = true ∧ convOkFor (co j) fmt = true) →
      loopLogs co fetchOk fmt i (List.replicate n true) = [.itemError f] := by
  intro n
  induction n with
  | zero => intro i f h1 h2 _ _; omega
  | succ m ih =>
    intro i f h1 h2 hfail hok
    rw [List.replicate_succ, loopLogs, itemLogs, if_pos rfl]
    rcases eq_or_ne i f with rfl | hne
    · have hbad : (fetchOk i && convOkFor (co i) fmt) = false := by
        cases hfo : fetchOk i with
        | false => simp
        | true =>
          cases hco : convOkFor (co i) fmt with
          | false => simp
          | true => exact absurd ⟨hfo, hco⟩ hfail
      rw [hbad]
      simp only [Bool.false_eq_true, if_false]
      rw [loopLogs_replicate_ok co fetchOk fmt m (i + 1)
        (fun j hj1 hj2 => hok j (by omega) (by omega) (by omega))]
      exact List.append_nil _
    · have hi := hok i (le_refl i) (by omega) hne
      rw [hi.1, hi.2]
      simp only [Bool.and_self, if_true, List.nil_append]
      exact ih (i + 1) f (by omega) (by omega) hfail
        (fun j hj1 hj2 hj3 => hok j (by omega) (by omega) hj3)

theorem mem_loopNames (co : ℕ → ConvOk) (fetchOk : ℕ → Bool) (fmt : Fmt) :
    ∀ (st : List Bool) (i j : ℕ), i ≤ j → st[j - i]? = some true →
      ∀ nm ∈ itemNames co fetchOk fmt j true, nm ∈ loopNames co fetchOk fmt i st := by
  intro st
  induction st with
  | nil => intro i j _ hj nm _; simp at hj
  | cons a rest ih =>
    intro i j hij hj nm hnm
    rw [loopNames]
    rcases eq_or_ne j i with rfl | hne
    · simp only [Nat.sub_self, List.getElem?_cons_zero, Option.some.injEq] at hj
      rw [hj]
      exact List.mem_append.mpr (Or.inl hnm)
    · have hlt : i < j := by omega
      have hj' : rest[j - (i + 1)]? = some true := by
        have : j - i = (j - (i + 1)) + 1 := by omega
        rw [this] at hj
        simpa using hj
      exact List.mem_append.mpr (Or.inr (ih (i + 1) j (by omega) hj' nm hnm))

theorem loopNames_all_false (co : ℕ → ConvOk) (fetchOk : ℕ → Bool) (fmt : Fmt) :
    ∀ (st : List Bool) (i : ℕ), (∀ a ∈ st, a = false) →
      loopNames co fetchOk fmt i st = [] := by
  intro st
  induction st with
  | nil => intro i _; rfl
  | cons a rest ih =>
    intro i h
    rw [loopNames, h a (List.mem_cons_self _ _), itemNames]
    simp only [Bool.false_and, Bool.false_eq_true, if_false, List.nil_append]
    exact ih (i + 1) (fun x hx => h x (List.mem_cons_of_mem _ hx))

theorem map_entry_names (tempP : FPath) (L : List FName) :
    ((L.map (fun n => (tempP ++ [n], contOf n))).map
        (fun e => (basename e.1, e.2))).map Prod.fst = L := by
  induction L with
  | nil => rfl
  | cons n rest ih => simp only [List.map_cons, ih, basename_append]

theorem loopFiles_entry_names (co : ℕ → ConvOk) (fetchOk : ℕ → Bool) (fmt : Fmt)
    (tempP : FPath) (i : ℕ) (st : List Bool) :
    ((loopFiles co fetchOk fmt tempP i st).map (fun e => (basename e.1, e.2))).map Prod.fst =
      loopNames co fetchOk fmt i st := by
  exact map_entry_names tempP (loopNames co fetchOk fmt i st)

theorem replicate_getElem_some (a : Bool) :
    ∀ (n m : ℕ), m < n → (List.replicate n a)[m]? = some a := by
  intro n
  induction n with
  | zero => intro m hm; omega
  | succ k ih =>
    intro m hm
    rw [List.replicate_succ]
    cases m with
    | zero => rw [List.getElem?_cons_zero]
    | succ m' =>
      rw [List.getElem?_cons_succ]
      exact ih m' (by omega)

/-! ### Claim C3: workspace cleanup -/

/-- **C3 (counterexample).** The spec says every job's workspace is removed
by the time the job ends, even on failure.  In fact `handle_download`'s
error path performs no cleanup at all: a single-item job whose conversion
fails leaves both the per-job directory and the downloaded payload on
disk. -/
theorem workspace_cleanup_counterexample :
    (handle_download_single ⟨false, false, false, false⟩ true true Fmt.gif 0 World.init).fs.dirs =
      [[FName.outRoot], jobPath 0] ∧
    (handle_download_single ⟨false, false, false, false⟩ true true Fmt.gif 0 World.init).fs.files =
      [(jobPath 0 ++ [FName.tgsName 1], Content.tgsC 1)] :=
  ⟨rfl, rfl⟩

/-- **C3 (amended).** Cleanup is tied to the success path only: a
single-item job that completes without error removes its workspace
directory and every file; a whole-collection job always completes without a
job-fatal error but removes only `temp` and `split`, leaving the (empty)
per-job directory under the output root; and a failed single-item job
leaves its workspace directory behind, because the error handler does no
cleanup. -/
theorem workspace_cleanup_amended :
    (∀ (co : ConvOk) (getOk dlOk : Bool) (fmt : Fmt) (suffix : ℕ),
      (download_and_send_sticker co getOk dlOk fmt suffix World.init).2 = none →
      (download_and_send_sticker co getOk dlOk fmt suffix World.init).1.fs.dirs =
        [[FName.outRoot]] ∧
      (download_and_send_sticker co getOk dlOk fmt suffix World.init).1.fs.files = []) ∧
    (∀ (sz : Content → ℚ) (co : ℕ → ConvOk) (fetchOk : ℕ → Bool) (fmt : Fmt) (suffix : ℕ)
        (stickers : List Bool),
      (download_and_send_sticker_set sz co fetchOk fmt suffix stickers World.init).2 = none ∧
      (download_and_send_sticker_set sz co fetchOk fmt suffix stickers World.init).1.fs.dirs =
        [[FName.outRoot], jobPath suffix] ∧
      (download_and_send_sticker_set sz co fetchOk fmt suffix stickers World.init).1.fs.files
        = []) ∧
    (∀ (fmt : Fmt) (suffix : ℕ),
      jobPath suffix ∈
        (handle_download_single ⟨false, false, false, false⟩ true true fmt suffix
          World.init).fs.dirs) := by
  refine ⟨?_, ?_, ?_⟩
  · intro co getOk dlOk fmt suffix h
    obtain ⟨cg, cp, cw, cl⟩ := co
    cases fmt <;> cases getOk <;> cases dlOk <;> cases cg <;> cases cp <;> cases cw <;>
      cases cl <;>
      simp [download_and_send_sticker, singleFormatStep, jobPath, World.init, FS.hasDir,
        FS.mkdir, FS.write, FS.removeFile, FS.lookup, FS.rmdir, childOf, send_document,
        send_zip_file, zipEntries, buildZip, convOne, convLottie, basename,
        removeEntry, removeDirEntry, lookupIn,
        List.cons_prefix_cons, List.prefix_nil, List.nil_prefix, List.dropLast_concat] at h ⊢
  · intro sz co fetchOk fmt suffix stickers
    rw [set_pipeline_run]
    exact ⟨rfl, rfl, rfl⟩
  · intro fmt suffix
    cases fmt <;>
      simp [handle_download_single, download_and_send_sticker, singleFormatStep, jobPath,
        World.init, FS.hasDir, FS.mkdir, FS.write, convOne, convLottie]

/-- Concrete instance of the amended C3 theorem: a successful single-item
job (format ALL, all converters succeeding) ends with an empty output root
and no files on disk. -/
theorem workspace_cleanup_amended_witness :
    (download_and_send_sticker ConvOk.all true true Fmt.all 0 World.init).1.fs.dirs =
      [[FName.outRoot]] ∧
    (download_and_send_sticker ConvOk.all true true Fmt.all 0 World.init).1.fs.files = [] :=
  workspace_cleanup_amended.1 ConvOk.all true true Fmt.all 0 rfl

/-! ### Claim C4: partial-failure tolerance in the set job -/

/-- **C4.** In a whole-collection job over `n` animated items where item
`f`'s fetch or conversion fails and every other item succeeds, the job
completes without a job-fatal error, exactly the one item-local error is
logged, and every output of every non-failing item appears (under its base
name) among the entries of the delivered archives. -/
theorem partial_failure_tolerance (sz : Content → ℚ) (co : ℕ → ConvOk) (fetchOk : ℕ → Bool)
    (fmt : Fmt) (suffix : ℕ) (n f : ℕ) (hf1 : 1 ≤ f) (hf2 : f ≤ n)
    (hfail : ¬ (fetchOk f = true ∧ convOkFor (co f) fmt = true))
    (hok : ∀ j, 1 ≤ j → j ≤ n → j ≠ f → fetchOk j = true ∧ convOkFor (co j) fmt = true) :
    (download_and_send_sticker_set sz co fetchOk fmt suffix
        (List.replicate n true) World.init).2 = none ∧
    (download_and_send_sticker_set sz co fetchOk fmt suffix
        (List.replicate n true) World.init).1.logs = [.itemError f] ∧
    ∀ j, 1 ≤ j → j ≤ n → j ≠ f →
      ∀ e ∈ itemOutputs (co j) fmt (jobPath suffix ++ [.tempDir]) j,
        (basename e.1, e.2) ∈ deliveredEntries
          (download_and_send_sticker_set sz co fetchOk fmt suffix
            (List.replicate n true) World.init).1 := by
  rw [set_pipeline_run]
  dsimp only
  refine ⟨rfl, ?_, ?_⟩
  · exact loopLogs_replicate_one_fail co fetchOk fmt n 1 f hf1 (by omega) hfail
      (fun j hj1 hj2 hj3 => hok j hj1 (by omega) hj3)
  · intro j hj1 hj2 hjne e he
    rcases List.mem_map.mp he with ⟨nm, hnm, rfl⟩
    have hfj := (hok j hj1 hj2 hjne).1
    have hitem : itemNames co fetchOk fmt j true = .tgsName j :: outNames (co j) fmt j := by
      simp [itemNames, hfj]
    have hnm' : nm ∈ itemNames co fetchOk fmt j true := by
      rw [hitem]
      exact List.mem_cons_of_mem _ hnm
    have hname : nm ∈ loopNames co fetchOk fmt 1 (List.replicate n true) :=
      mem_loopNames co fetchOk fmt (List.replicate n true) 1 j hj1
        (replicate_getElem_some true n (j - 1) (by omega)) nm hnm'
    rw [deliveredEntries_of_binMsgs, greedySplit_flatten]
    exact List.mem_map.mpr ⟨_, List.mem_map.mpr ⟨nm, hname, rfl⟩, rfl⟩

/-- Concrete instance of the C4 theorem: two animated items, item 1's fetch
always fails; the job still completes, logs exactly one item error, and
item 2's gif output is among the delivered entries. -/
theorem partial_failure_tolerance_witness :
    (download_and_send_sticker_set (fun _ => 1) (fun _ => ConvOk.all)
        (fun j => decide (j ≠ 1)) Fmt.gif 0 (List.replicate 2 true) World.init).2 = none ∧
    (download_and_send_sticker_set (fun _ => 1) (fun _ => ConvOk.all)
        (fun j => decide (j ≠ 1)) Fmt.gif 0 (List.replicate 2 true) World.init).1.logs =
      [.itemError 1] ∧
    (FName.gifName 2, Content.gifC 2) ∈ deliveredEntries
      (download_and_send_sticker_set (fun _ => 1) (fun _ => ConvOk.all)
        (fun j => decide (j ≠ 1)) Fmt.gif 0 (List.replicate 2 true) World.init).1 := by
  have h := partial_failure_tolerance (fun _ => 1) (fun _ => ConvOk.all)
    (fun j => decide (j ≠ 1)) Fmt.gif 0 2 1 (le_refl 1) (by omega)
    (by decide) (fun j h1 h2 h3 => ⟨by simp [h3], rfl⟩)
  exact ⟨h.1, h.2.1, h.2.2 2 (by omega) (le_refl 2) (by omega)
    ((jobPath 0 ++ [FName.tempDir]) ++ [FName.gifName 2], Content.gifC 2)
    (by simp [itemOutputs, outNames, ConvOk.all, contOf])⟩

/-! ### Claim C9: the downloaded payload is delivered with the outputs -/

/-- **C9.** In every whole-collection job, for every chosen format, the
downloaded `.tgs` payload of each animated, successfully fetched item is
never deleted before splitting, so it appears exactly once among the
entries of the delivered archives, alongside the converted outputs. -/
theorem tgs_payload_delivered (sz : Content → ℚ) (co : ℕ → ConvOk) (fetchOk : ℕ → Bool)
    (fmt : Fmt) (suffix : ℕ) (stickers : List Bool) (j : ℕ) (hj : 1 ≤ j)
    (hanim : stickers[j - 1]? = some true) (hfetch : fetchOk j = true) :
    (FName.tgsName j, Content.tgsC j) ∈ deliveredEntries
      (download_and_send_sticker_set sz co fetchOk fmt suffix stickers World.init).1 ∧
    ((deliveredEntries
          (download_and_send_sticker_set sz co fetchOk fmt suffix stickers World.init).1).map
        Prod.fst).count (FName.tgsName j) = 1 := by
  have hitem : itemNames co fetchOk fmt j true = .tgsName j :: outNames (co j) fmt j := by
    simp [itemNames, hfetch]
  have hnm : FName.tgsName j ∈ itemNames co fetchOk fmt j true := by
    rw [hitem]
    exact List.mem_cons_self _ _
  have hname : FName.tgsName j ∈ loopNames co fetchOk fmt 1 stickers :=
    mem_loopNames co fetchOk fmt stickers 1 j hj hanim _ hnm
  rw [set_pipeline_run]
  dsimp only
  rw [deliveredEntries_of_binMsgs, greedySplit_flatten]
  constructor
  · exact List.mem_map.mpr
      ⟨((jobPath suffix ++ [FName.tempDir]) ++ [FName.tgsName j], Content.tgsC j),
        List.mem_map.mpr ⟨FName.tgsName j, hname, rfl⟩,
        by simp [basename_append, basename_append_two]⟩
  · rw [loopFiles_entry_names]
    exact List.count_eq_one_of_mem (loopNames_nodup co fetchOk fmt stickers 1) hname

/-- Concrete instance of the C9 theorem: a one-item animated collection,
format GIF; the payload `.tgs` entry is delivered and appears exactly
once. -/
theorem tgs_payload_delivered_witness :
    (FName.tgsName 1, Content.tgsC 1) ∈ deliveredEntries
      (download_and_send_sticker_set (fun _ => 1) (fun _ => ConvOk.all) (fun _ => true)
        Fmt.gif 0 [true] World.init).1 ∧
    ((deliveredEntries
          (download_and_send_sticker_set (fun _ => 1) (fun _ => ConvOk.all) (fun _ => true)
            Fmt.gif 0 [true] World.init).1).map
        Prod.fst).count (FName.tgsName 1) = 1 :=
  tgs_payload_delivered (fun _ => 1) (fun _ => ConvOk.all) (fun _ => true) Fmt.gif 0 [true] 1
    (le_refl 1) (by simp) rfl

/-! ### Claim C10: unconditional dir_0 and the empty archive -/

/-- **C10.** `split_files_into_directories` opens bin 0 before examining
any file: an empty source listing yields exactly one (empty) bin, and a
first file whose size alone exceeds the ceiling leaves bin 0 empty; a
whole-collection job with no animated items therefore builds and delivers
exactly one archive with zero entries. -/
theorem split_dir_zero_and_empty_archive :
    (∀ (sz : Content → ℚ) (C : ℚ) (fs : FS) (src : FPath),
      fs.listFiles src = [] → splitBins sz C fs src = [[]]) ∧
    (∀ (sz : Content → ℚ) (C : ℚ) (fs : FS) (src : FPath) (e : FPath × Content)
        (rest : List (FPath × Content)),
      fs.listFiles src = e :: rest → C < sz e.2 →
      ∃ bs, splitBins sz C fs src = [] :: bs) ∧
    (∀ (sz : Content → ℚ) (co : ℕ → ConvOk) (fetchOk : ℕ → Bool) (fmt : Fmt) (suffix : ℕ)
        (stickers : List Bool), (∀ a ∈ stickers, a = false) →
      (download_and_send_sticker_set sz co fetchOk fmt suffix stickers World.init).1.sent =
        [Msg.document (.zipBin 0) (.zipC [])]) := by
  refine ⟨?_, ?_, ?_⟩
  · intro sz C fs src h
    simp only [splitBins, greedySplit, h, greedyGo]
  · intro sz C fs src e rest h hC
    refine ⟨greedyGo (fun x => sz x.2) C rest [e] (sz e.2), ?_⟩
    simp only [splitBins, greedySplit, h, greedyGo]
    rw [if_pos (by rw [zero_add]; exact hC)]
  · intro sz co fetchOk fmt suffix stickers hfalse
    rw [set_pipeline_run]
    have h0 : loopFiles co fetchOk fmt (jobPath suffix ++ [FName.tempDir]) 1 stickers = [] := by
      simp only [loopFiles, loopNames_all_false co fetchOk fmt stickers 1 hfalse, List.map_nil]
    rw [h0]
    rfl

/-- Concrete instance of the C10 theorem: a collection with no stickers at
all still delivers exactly one archive, with zero entries. -/
theorem split_dir_zero_and_empty_archive_witness :
    (download_and_send_sticker_set (fun _ => 1) (fun _ => ConvOk.all) (fun _ => true)
        Fmt.gif 0 [] World.init).1.sent = [Msg.document (.zipBin 0) (.zipC [])] :=
  split_dir_zero_and_empty_archive.2.2 (fun _ => 1) (fun _ => ConvOk.all) (fun _ => true)
    Fmt.gif 0 [] (by intro a ha; simp at ha)

end StickerBot
